import Mathlib

/-!
Verification of the gekko Substrate client library.

This file gives a shallow embedding, in Lean 4, of the parts of the gekko
repository that its specification talks about: the SCALE compact integer
codec, the transaction-v4 envelope codec (`src/interface/src/transaction/v4.rs`),
the shared primitives (`src/interface/src/common/mod.rs`), the SS58 address
codec (`src/interface/src/common/ss58format.rs`), the metadata version
dispatch (`src/metadata/src/lib.rs`) and the collector's catch-up range
(`src/collector/src/lib.rs`), together with theorems settling the
specification's claims about them.

Bytes are modelled as natural numbers (`Nat`) in `[0, 256)`; byte strings as
`List Nat`.  Machine-integer truncation is written with explicit `% 2^w`.
Fallible Rust code is modelled with `Option`/`Except`-style result types; a
Rust `panic!`/`unwrap` failure is modelled by the dedicated `RustOutcome.panicked`
value, kept distinct from an ordinary returned error.
-/

namespace Gekko

/-! ## Little-endian positional digits

Shared machinery for base conversion, used by the SCALE compact codec
(base 256) and the Base58 alphabet of SS58 addresses (base 58).  The digit
extractor takes explicit fuel so that it is structurally recursive and
evaluates inside the kernel.
-/

/-- Little-endian digits of `n` in base `b`, with explicit `fuel ≥ n`.
`0` has no digits; otherwise the last digit is nonzero. -/
def natDigitsF (b : Nat) : Nat → Nat → List Nat
  | _, 0 => []
  | 0, _ + 1 => []
  | fuel + 1, n + 1 => (n + 1) % b :: natDigitsF b fuel ((n + 1) / b)

/-- Little-endian digits of `n` in base `b` (minimal: no trailing zero digit). -/
def natDigits (b n : Nat) : List Nat :=
  natDigitsF b n n

/-- Value of a little-endian digit list in base `b`. -/
def digitsVal (b : Nat) : List Nat → Nat
  | [] => 0
  | d :: ds => d + b * digitsVal b ds

theorem natDigitsF_zero (b fuel : Nat) : natDigitsF b fuel 0 = [] := by
  cases fuel <;> rfl

theorem natDigitsF_succ (b fuel n : Nat) :
    natDigitsF b (fuel + 1) (n + 1) = (n + 1) % b :: natDigitsF b fuel ((n + 1) / b) := rfl

@[simp]
theorem natDigits_zero (b : Nat) : natDigits b 0 = [] := rfl

theorem natDigitsF_stable (b : Nat) (hb : 2 ≤ b) :
    ∀ fuel n, n ≤ fuel → natDigitsF b fuel n = natDigits b n := by
  intro fuel
  induction fuel using Nat.strong_induction_on with
  | _ fuel ih =>
    intro n hn
    cases n with
    | zero => rw [natDigitsF_zero]; rfl
    | succ m =>
      cases fuel with
      | zero => omega
      | succ f =>
        rw [natDigitsF_succ]
        show _ = natDigitsF b (m + 1) (m + 1)
        rw [natDigitsF_succ]
        have hdiv : (m + 1) / b < m + 1 := Nat.div_lt_self (Nat.succ_pos m) hb
        rw [ih f (Nat.lt_succ_self f) _ (by omega)]
        rw [ih m (by omega) _ (by omega)]

theorem natDigits_succ (b n : Nat) (hb : 2 ≤ b) (hn : 0 < n) :
    natDigits b n = n % b :: natDigits b (n / b) := by
  obtain ⟨m, rfl⟩ : ∃ m, n = m + 1 := ⟨n - 1, by omega⟩
  show natDigitsF b (m + 1) (m + 1) = _
  rw [natDigitsF_succ]
  have hdiv : (m + 1) / b < m + 1 := Nat.div_lt_self (Nat.succ_pos m) hb
  rw [natDigitsF_stable b hb m _ (by omega)]

theorem digitsVal_natDigits (b : Nat) (hb : 2 ≤ b) :
    ∀ n, digitsVal b (natDigits b n) = n := by
  intro n
  induction n using Nat.strong_induction_on with
  | _ n ih =>
    rcases Nat.eq_zero_or_pos n with rfl | hn
    · simp [digitsVal]
    · rw [natDigits_succ b n hb hn]
      simp only [digitsVal]
      rw [ih (n / b) (Nat.div_lt_self hn hb)]
      exact Nat.mod_add_div n b

theorem natDigits_getLast_ne_zero (b : Nat) (hb : 2 ≤ b) :
    ∀ n, (natDigits b n).getLast? ≠ some 0 := by
  intro n
  induction n using Nat.strong_induction_on with
  | _ n ih =>
    rcases Nat.eq_zero_or_pos n with rfl | hn
    · simp
    · rw [natDigits_succ b n hb hn]
      rcases Nat.lt_or_ge n b with hnb | hnb
      · have h0 : n / b = 0 := Nat.div_eq_of_lt hnb
        rw [h0, natDigits_zero]
        show ([n % b].getLast? ≠ some 0)
        rw [Nat.mod_eq_of_lt hnb]
        simp
        omega
      · have hpos : 0 < n / b := Nat.div_pos hnb (by omega)
        have hlt : n / b < n := Nat.div_lt_self hn hb
        have hne := ih (n / b) hlt
        have hnil : natDigits b (n / b) ≠ [] := by
          rw [natDigits_succ b (n / b) hb hpos]
          simp
        obtain ⟨e, es, hes⟩ := List.exists_cons_of_ne_nil hnil
        rw [hes]
        rw [hes] at hne
        rw [List.getLast?_cons_cons]
        exact hne

theorem natDigits_lt (b : Nat) (hb : 2 ≤ b) :
    ∀ n, ∀ d ∈ natDigits b n, d < b := by
  intro n
  induction n using Nat.strong_induction_on with
  | _ n ih =>
    rcases Nat.eq_zero_or_pos n with rfl | hn
    · simp
    · rw [natDigits_succ b n hb hn]
      intro d hd
      rcases List.mem_cons.mp hd with rfl | hd
      · exact Nat.mod_lt n (by omega)
      · exact ih (n / b) (Nat.div_lt_self hn hb) d hd

theorem digitsVal_pos (b : Nat) (hb : 2 ≤ b) :
    ∀ l : List Nat, l ≠ [] → l.getLast? ≠ some 0 → 0 < digitsVal b l := by
  intro l
  induction l with
  | nil => intro h; exact absurd rfl h
  | cons d ds ihds =>
    intro _ hlast
    cases ds with
    | nil =>
      have : d ≠ 0 := by
        intro h
        apply hlast
        rw [h]
        rfl
      simp [digitsVal]
      omega
    | cons e es =>
      rw [List.getLast?_cons_cons] at hlast
      have h1 := ihds (by simp) hlast
      simp only [digitsVal] at *
      have h2 : 0 < b * (e + b * digitsVal b es) := Nat.mul_pos (by omega) h1
      omega

/-- Uniqueness: extracting the digits of the value of a minimal digit list
recovers the list. -/
theorem natDigits_digitsVal (b : Nat) (hb : 2 ≤ b) :
    ∀ l : List Nat, (∀ d ∈ l, d < b) → l.getLast? ≠ some 0 →
      natDigits b (digitsVal b l) = l := by
  intro l
  induction l with
  | nil => intro _ _; simp [digitsVal]
  | cons d ds ihds =>
    intro hlt hlast
    have hd : d < b := hlt d (List.mem_cons_self d ds)
    cases ds with
    | nil =>
      have hdne : d ≠ 0 := by
        intro h
        apply hlast
        rw [h]
        rfl
      simp only [digitsVal, Nat.mul_zero, Nat.add_zero]
      rw [natDigits_succ b d hb (by omega)]
      rw [Nat.mod_eq_of_lt hd, Nat.div_eq_of_lt hd]
      simp
    | cons e es =>
      rw [List.getLast?_cons_cons] at hlast
      have hlast' : (e :: es).getLast? ≠ some 0 := hlast
      have hpos : 0 < digitsVal b (e :: es) := digitsVal_pos b hb _ (by simp) hlast'
      have hih := ihds (fun x hx => hlt x (List.mem_cons_of_mem d hx)) hlast'
      simp only [digitsVal] at *
      have hval : 0 < d + b * (e + b * digitsVal b es) := by positivity
      rw [natDigits_succ b _ hb hval]
      have hmod : (d + b * (e + b * digitsVal b es)) % b = d := by
        rw [Nat.add_mul_mod_self_left, Nat.mod_eq_of_lt hd]
      have hdiv : (d + b * (e + b * digitsVal b es)) / b = e + b * digitsVal b es := by
        rw [Nat.add_mul_div_left _ _ (by omega : 0 < b), Nat.div_eq_of_lt hd]
        omega
      rw [hmod, hdiv, hih]

theorem digitsVal_lt (b : Nat) (_hb : 2 ≤ b) :
    ∀ l : List Nat, (∀ d ∈ l, d < b) → digitsVal b l < b ^ l.length := by
  intro l
  induction l with
  | nil => intro _; simp [digitsVal]
  | cons d ds ihds =>
    intro hlt
    have hd : d < b := hlt d (List.mem_cons_self d ds)
    have hds := ihds (fun x hx => hlt x (List.mem_cons_of_mem d hx))
    simp only [digitsVal, List.length_cons, pow_succ]
    have h1 : b * digitsVal b ds + b ≤ b * b ^ ds.length := by
      have : digitsVal b ds + 1 ≤ b ^ ds.length := hds
      calc b * digitsVal b ds + b = b * (digitsVal b ds + 1) := by ring
        _ ≤ b * b ^ ds.length := Nat.mul_le_mul_left b this
    have h2 : b * b ^ ds.length = b ^ ds.length * b := Nat.mul_comm _ _
    omega

theorem natDigits_length_ge (b : Nat) (hb : 2 ≤ b) (n k : Nat) (hn : b ^ k ≤ n) :
    k < (natDigits b n).length := by
  by_contra hlen
  push_neg at hlen
  have h1 : digitsVal b (natDigits b n) < b ^ (natDigits b n).length :=
    digitsVal_lt b hb _ (natDigits_lt b hb n)
  rw [digitsVal_natDigits b hb] at h1
  have h2 : b ^ (natDigits b n).length ≤ b ^ k :=
    Nat.pow_le_pow_right (by omega) hlen
  omega

/-! ## SCALE compact integers

Modelled after the SCALE specification (spec §4.1) as implemented by the
external `parity-scale-codec` crate: a 2-bit mode tag in the first byte
selects single-byte, two-byte, four-byte or big-integer mode; encoding uses
the shortest legal mode, decoding rejects non-canonical forms.  The decoder
here is the unbounded-value one (the checks special to `Compact<u32>` versus
`Compact<u128>` widths are not needed by any claim).
-/

/-- SCALE compact encoding of `n` (shortest legal mode). -/
def compactEncode (n : Nat) : List Nat :=
  if n < 64 then [n * 4]
  else if n < 2 ^ 14 then [(n % 64) * 4 + 1, n / 64]
  else if n < 2 ^ 30 then
    [(n % 64) * 4 + 2, n / 64 % 256, n / 16384 % 256, n / 4194304]
  else
    (((natDigits 256 n).length - 4) * 4 + 3) :: natDigits 256 n

/-- SCALE compact decoding; returns the value and the remaining input,
rejecting non-canonical encodings. -/
def compactDecode : List Nat → Option (Nat × List Nat)
  | [] => none
  | b :: rest =>
    if b % 4 = 0 then some (b / 4, rest)
    else if b % 4 = 1 then
      match rest with
      | [] => none
      | b2 :: r2 =>
        if 64 ≤ b / 4 + b2 * 64 then some (b / 4 + b2 * 64, r2) else none
    else if b % 4 = 2 then
      match rest with
      | b2 :: b3 :: b4 :: r2 =>
        if 2 ^ 14 ≤ b / 4 + b2 * 64 + b3 * 16384 + b4 * 4194304 then
          some (b / 4 + b2 * 64 + b3 * 16384 + b4 * 4194304, r2)
        else none
      | _ => none
    else
      if b / 4 + 4 ≤ rest.length then
        if 2 ^ 30 ≤ digitsVal 256 (rest.take (b / 4 + 4)) then
          if (rest.take (b / 4 + 4)).getLast? = some 0 then none
          else some (digitsVal 256 (rest.take (b / 4 + 4)), rest.drop (b / 4 + 4))
        else none
      else none

theorem compactDecode_cons (b : Nat) (rest : List Nat) :
    compactDecode (b :: rest) =
      (if b % 4 = 0 then some (b / 4, rest)
      else if b % 4 = 1 then
        match rest with
        | [] => none
        | b2 :: r2 =>
          if 64 ≤ b / 4 + b2 * 64 then some (b / 4 + b2 * 64, r2) else none
      else if b % 4 = 2 then
        match rest with
        | b2 :: b3 :: b4 :: r2 =>
          if 2 ^ 14 ≤ b / 4 + b2 * 64 + b3 * 16384 + b4 * 4194304 then
            some (b / 4 + b2 * 64 + b3 * 16384 + b4 * 4194304, r2)
          else none
        | _ => none
      else
        if b / 4 + 4 ≤ rest.length then
          if 2 ^ 30 ≤ digitsVal 256 (rest.take (b / 4 + 4)) then
            if (rest.take (b / 4 + 4)).getLast? = some 0 then none
            else some (digitsVal 256 (rest.take (b / 4 + 4)), rest.drop (b / 4 + 4))
          else none
        else none) := rfl

theorem compactDecode_compactEncode (n : Nat) (rest : List Nat) :
    compactDecode (compactEncode n ++ rest) = some (n, rest) := by
  unfold compactEncode
  rcases Nat.lt_or_ge n 64 with h64 | h64
  · rw [if_pos h64]
    rw [show ([n * 4] ++ rest) = n * 4 :: rest from rfl, compactDecode_cons]
    rw [if_pos (by omega : n * 4 % 4 = 0)]
    congr 2
    omega
  · rw [if_neg (by omega)]
    rcases Nat.lt_or_ge n (2 ^ 14) with h14 | h14
    · rw [if_pos h14]
      rw [show ([(n % 64) * 4 + 1, n / 64] ++ rest)
            = ((n % 64) * 4 + 1) :: n / 64 :: rest from rfl, compactDecode_cons]
      rw [if_neg (by omega), if_pos (by omega : ((n % 64) * 4 + 1) % 4 = 1)]
      have hv : ((n % 64) * 4 + 1) / 4 + n / 64 * 64 = n := by omega
      simp only [hv]
      rw [if_pos h64]
    · rw [if_neg (by omega)]
      rcases Nat.lt_or_ge n (2 ^ 30) with h30 | h30
      · rw [if_pos h30]
        rw [show ([(n % 64) * 4 + 2, n / 64 % 256, n / 16384 % 256, n / 4194304] ++ rest)
              = ((n % 64) * 4 + 2) :: n / 64 % 256 :: n / 16384 % 256
                :: n / 4194304 :: rest from rfl, compactDecode_cons]
        rw [if_neg (by omega), if_neg (by omega),
          if_pos (by omega : ((n % 64) * 4 + 2) % 4 = 2)]
        have hv : ((n % 64) * 4 + 2) / 4 + n / 64 % 256 * 64
            + n / 16384 % 256 * 16384 + n / 4194304 * 4194304 = n := by omega
        simp only [hv]
        rw [if_pos h14]
      · rw [if_neg (by omega)]
        rw [List.cons_append, compactDecode_cons]
        have hlen4 : 4 ≤ (natDigits 256 n).length := by
          have := natDigits_length_ge 256 (by omega) n 3 (by omega)
          omega
        rw [if_neg (by omega), if_neg (by omega), if_neg (by omega)]
        have hlen : (((natDigits 256 n).length - 4) * 4 + 3) / 4 + 4
            = (natDigits 256 n).length := by omega
        rw [hlen]
        rw [if_pos (by simp : (natDigits 256 n).length ≤ (natDigits 256 n ++ rest).length)]
        rw [List.take_left, List.drop_left]
        rw [digitsVal_natDigits 256 (by omega) n]
        rw [if_pos h30]
        rw [if_neg (natDigits_getLast_ne_zero 256 (by omega) n)]

/-! ## Shared primitives (`src/interface/src/common/mod.rs`) -/

/-- Outcome of running a piece of Rust code that may return normally, return
an error, or `panic!`.  A panic (`unwrap`, `unimplemented!`, explicit `panic!`)
is modelled as the distinguished `panicked` value, kept apart from an
ordinary returned error. -/
inductive RustOutcome (ε : Type) (α : Type) where
  | ok (a : α)
  | err (e : ε)
  | panicked
deriving DecidableEq, Repr

/-- True exactly on a successful (non-error, non-panic) outcome. -/
def RustOutcome.isOk {ε α : Type} : RustOutcome ε α → Bool
  | .ok _ => true
  | _ => false

/-- The crate-level error type.  Modelled from the spec: the interface
crate's root (which declares `Error`) is not under `src/`; its shape is fixed
by the spec's error taxonomy (§7, `BuilderMissingField(name)`) and by the
uses in `src/interface/src/transaction/v4.rs`. -/
inductive Error where
  | BuilderMissingField (name : String)
deriving DecidableEq, Repr

/-- Rust `enum Network` from `src/interface/src/common/mod.rs`. -/
inductive Network where
  | Polkadot
  | Kusama
  | Westend
  | Custom (genesis : List Nat)
deriving DecidableEq, Repr

/-- Rust `Network::genesis`: the chain's genesis hash (32 bytes, transcribed from
the hex constants in the source). -/
def Network.genesis : Network → List Nat
  | .Polkadot =>
    [0x91, 0xb1, 0x71, 0xbb, 0x15, 0x8e, 0x2d, 0x38, 0x48, 0xfa, 0x23, 0xa9,
     0xf1, 0xc2, 0x51, 0x82, 0xfb, 0x8e, 0x20, 0x31, 0x3b, 0x2c, 0x1e, 0xb4,
     0x92, 0x19, 0xda, 0x7a, 0x70, 0xce, 0x90, 0xc3]
  | .Kusama =>
    [0xb0, 0xa8, 0xd4, 0x93, 0x28, 0x5c, 0x2d, 0xf7, 0x32, 0x90, 0xdf, 0xb7,
     0xe6, 0x1f, 0x87, 0x0f, 0x17, 0xb4, 0x18, 0x01, 0x19, 0x7a, 0x14, 0x9c,
     0xa9, 0x36, 0x54, 0x49, 0x9e, 0xa3, 0xda, 0xfe]
  | .Westend =>
    [0xe1, 0x43, 0xf2, 0x38, 0x03, 0xac, 0x50, 0xe8, 0xf6, 0xf8, 0xe6, 0x26,
     0x95, 0xd1, 0xce, 0x9e, 0x4e, 0x1d, 0x68, 0xaa, 0x36, 0xc1, 0xcd, 0x2c,
     0xfd, 0x15, 0x34, 0x02, 0x13, 0xf3, 0x42, 0x3e]
  | .Custom genesis => genesis

/-- Rust `struct Balance { balance: u128, unit: u128 }`. -/
structure Balance where
  balance : Nat
  unit : Nat
deriving DecidableEq, Repr

/-- Rust `Balance::as_base_unit`. -/
def Balance.as_base_unit (b : Balance) : Nat :=
  b.balance

/-- The `Encode` implementation of `Balance`: the SCALE compact encoding of
the raw `balance` field. -/
def Balance.encode (b : Balance) : List Nat :=
  compactEncode b.balance

/-- The `Decode` implementation of `Balance`: unconditionally an error
("cannot decode Balance. Use OpaqueBalance instead."). -/
def Balance.decode (_input : List Nat) : Option (Balance × List Nat) :=
  none

/-- Rust `enum Mortality` from `src/interface/src/common/mod.rs`: `Immortal` or
`Mortal(period, phase, Option<birth hash>)`. -/
inductive Mortality where
  | Immortal
  | Mortal (period : Nat) (phase : Nat) (birth : Option (List Nat))
deriving DecidableEq, Repr

/-- The birth-hash component carried in memory (never transmitted). -/
def Mortality.birthHash : Mortality → Option (List Nat)
  | .Immortal => none
  | .Mortal _ _ birth => birth

/-- Fuel-driven helper for `trailing_zeros` (count of factors of two). -/
def trailingZerosF : Nat → Nat → Nat
  | 0, _ => 0
  | fuel + 1, n => if n % 2 = 1 then 0 else 1 + trailingZerosF fuel (n / 2)

/-- Rust `u64::trailing_zeros` (64 for input `0`). -/
def u64TrailingZeros (n : Nat) : Nat :=
  if n = 0 then 64 else trailingZerosF n n

theorem trailingZerosF_pow (k : Nat) :
    ∀ fuel, 2 ^ k ≤ fuel → trailingZerosF fuel (2 ^ k) = k := by
  induction k with
  | zero =>
    intro fuel hf
    obtain ⟨f, rfl⟩ : ∃ f, fuel = f + 1 := ⟨fuel - 1, by omega⟩
    simp [trailingZerosF]
  | succ k ihk =>
    intro fuel hf
    have h2 : 2 ^ (k + 1) = 2 * 2 ^ k := by ring
    obtain ⟨f, rfl⟩ : ∃ f, fuel = f + 1 := by
      refine ⟨fuel - 1, ?_⟩
      have : 0 < 2 ^ (k + 1) := Nat.pos_pow_of_pos _ (by omega)
      omega
    show (if 2 ^ (k + 1) % 2 = 1 then 0 else 1 + trailingZerosF f (2 ^ (k + 1) / 2)) = k + 1
    rw [if_neg (by rw [h2]; omega)]
    have hdiv : 2 ^ (k + 1) / 2 = 2 ^ k := by rw [h2]; omega
    rw [hdiv, ihk f (by
      have h3 : 2 ^ k < 2 ^ (k + 1) := Nat.pow_lt_pow_right (by omega) (by omega)
      omega)]
    omega

theorem u64TrailingZeros_pow (k : Nat) : u64TrailingZeros (2 ^ k) = k := by
  unfold u64TrailingZeros
  rw [if_neg (by positivity)]
  exact trailingZerosF_pow k (2 ^ k) (Nat.le_refl _)

/-- Rust `quantize_factor` as computed by both the `Mortality` encoder and
decoder: `max(period >> 12, 1)`. -/
def quantizeFactor (period : Nat) : Nat :=
  max (period >>> 12) 1

/-- The packed `u16` computed by the `Mortality` encoder for the mortal
case: `clamp(trailing_zeros(period) - 1, 1, 15)` in the low four bits,
`phase / quantize_factor` shifted above, cast to `u16`.  The `- 1` is Rust
`u32` subtraction, written with its release-mode wrapping semantics. -/
def mortalEncoded (period phase : Nat) : Nat :=
  (min (max ((u64TrailingZeros period + (2 ^ 32 - 1)) % 2 ^ 32) 1) 15
    ||| ((phase / quantizeFactor period) <<< 4)) % 65536

/-- The custom `Encode` implementation of `Mortality`: `Immortal` is the
single byte `0`; `Mortal(period, phase, _)` emits `mortalEncoded` as a
little-endian `u16`.  The birth hash is not transmitted. -/
def Mortality.encode : Mortality → List Nat
  | .Immortal => [0]
  | .Mortal period phase _ =>
    [mortalEncoded period phase % 256, mortalEncoded period phase / 256 % 256]

/-- The custom `Decode` implementation of `Mortality`. -/
def Mortality.decode : List Nat → Option (Mortality × List Nat)
  | [] => none
  | first :: rest =>
    if first = 0 then some (.Immortal, rest)
    else
      match rest with
      | [] => none
      | b2 :: r2 =>
        let encoded := first + (b2 <<< 8)
        let period := 2 <<< (encoded % 16)
        let quantize_factor := max (period >>> 12) 1
        let phase := (encoded >>> 4) * quantize_factor
        if 4 ≤ period ∧ phase < period then
          some (.Mortal period phase none, r2)
        else none

/-- Rust `struct AccountId([u8; 32])`. -/
structure AccountId where
  bytes : List Nat
deriving DecidableEq, Repr

/-- The `Encode` implementation of `AccountId`: a zero byte (the
`MultiAddress::Id` tag) followed by the 32 raw bytes. -/
def AccountId.encode (a : AccountId) : List Nat :=
  0 :: a.bytes

/-- The `Decode` implementation of `AccountId`: expects the zero tag byte
then reads 32 bytes. -/
def AccountId.decode (input : List Nat) : Option (AccountId × List Nat) :=
  match input with
  | [] => none
  | idx :: rest =>
    if idx ≠ 0 then none
    else if 32 ≤ rest.length then some (⟨rest.take 32⟩, rest.drop 32)
    else none

/-- Rust `enum MultiSignature` carrying the raw signature bytes
(64 for Ed25519/Sr25519, 65 for ECDSA). -/
inductive MultiSignature where
  | Ed25519 (sig : List Nat)
  | Sr25519 (sig : List Nat)
  | Ecdsa (sig : List Nat)
deriving DecidableEq, Repr

/-- The derived `Encode` of `MultiSignature`: a one-byte variant
discriminator (declaration order) followed by the fixed-size raw bytes. -/
def MultiSignature.encode : MultiSignature → List Nat
  | .Ed25519 sig => 0 :: sig
  | .Sr25519 sig => 1 :: sig
  | .Ecdsa sig => 2 :: sig

/-- The derived `Decode` of `MultiSignature`. -/
def MultiSignature.decode (input : List Nat) : Option (MultiSignature × List Nat) :=
  match input with
  | [] => none
  | 0 :: rest =>
    if 64 ≤ rest.length then some (.Ed25519 (rest.take 64), rest.drop 64) else none
  | 1 :: rest =>
    if 64 ≤ rest.length then some (.Sr25519 (rest.take 64), rest.drop 64) else none
  | 2 :: rest =>
    if 65 ≤ rest.length then some (.Ecdsa (rest.take 65), rest.drop 65) else none
  | _ :: _ => none

/-- Rust `enum MultiKeyPair`, reduced to the data the embedded operations read
from it: the public key of each keypair (32 bytes for Ed25519/Sr25519, the
33-byte compressed key for ECDSA). -/
inductive MultiKeyPair where
  | Ed25519 (pubkey : List Nat)
  | Sr25519 (pubkey : List Nat)
  | Ecdsa (pubkey : List Nat)
deriving DecidableEq, Repr

/-- Rust `impl From<MultiKeyPair> for AccountId`
(`src/interface/src/common/mod.rs:527-535`): Ed25519 and Sr25519 yield the
public key; the ECDSA arm is `unimplemented!()`, i.e. a panic. -/
def MultiKeyPair.toAccountId : MultiKeyPair → RustOutcome Unit AccountId
  | .Ed25519 pubkey => .ok ⟨pubkey⟩
  | .Sr25519 pubkey => .ok ⟨pubkey⟩
  | .Ecdsa _ => .panicked

/-! ### Round-trip lemmas for the primitive codecs -/

theorem accountId_roundtrip (a : AccountId) (h : a.bytes.length = 32)
    (rest : List Nat) : AccountId.decode (a.encode ++ rest) = some (a, rest) := by
  obtain ⟨bs⟩ := a
  simp only [AccountId.encode, AccountId.decode, List.cons_append]
  rw [if_neg (by simp)]
  simp only at h
  rw [if_pos (by simp [h]), List.take_left' h, List.drop_left' h]

/-- Well-formed signature: the raw bytes have the length of the scheme's
signature type (64 for Ed25519/Sr25519, 65 for ECDSA). -/
def MultiSignature.wf : MultiSignature → Prop
  | .Ed25519 sig => sig.length = 64
  | .Sr25519 sig => sig.length = 64
  | .Ecdsa sig => sig.length = 65

theorem multiSignature_roundtrip (s : MultiSignature) (h : s.wf)
    (rest : List Nat) : MultiSignature.decode (s.encode ++ rest) = some (s, rest) := by
  cases s with
  | Ed25519 sig =>
    have hl : sig.length = 64 := h
    simp only [MultiSignature.encode, MultiSignature.decode, List.cons_append]
    rw [if_pos (by simp [hl]), List.take_left' hl, List.drop_left' hl]
  | Sr25519 sig =>
    have hl : sig.length = 64 := h
    simp only [MultiSignature.encode, MultiSignature.decode, List.cons_append]
    rw [if_pos (by simp [hl]), List.take_left' hl, List.drop_left' hl]
  | Ecdsa sig =>
    have hl : sig.length = 65 := h
    simp only [MultiSignature.encode, MultiSignature.decode, List.cons_append]
    rw [if_pos (by simp [hl]), List.take_left' hl, List.drop_left' hl]

theorem quantizeFactor_pow (k : Nat) :
    quantizeFactor (2 ^ k) = if 12 ≤ k then 2 ^ (k - 12) else 1 := by
  unfold quantizeFactor
  rw [Nat.shiftRight_eq_div_pow]
  rcases Nat.lt_or_ge k 12 with hk | hk
  · rw [if_neg (by omega)]
    rw [Nat.div_eq_of_lt (Nat.pow_lt_pow_right (by omega) hk)]
    simp
  · rw [if_pos hk, Nat.pow_div hk (by omega)]
    have : 0 < 2 ^ (k - 12) := Nat.pos_pow_of_pos _ (by omega)
    omega

theorem div_quantizeFactor_lt (k φ : Nat) (hk : k ≤ 16) (hφ : φ < 2 ^ k) :
    φ / quantizeFactor (2 ^ k) < 4096 := by
  rw [quantizeFactor_pow]
  rcases Nat.lt_or_ge k 12 with h12 | h12
  · rw [if_neg (by omega)]
    have : 2 ^ k ≤ 2 ^ 12 := Nat.pow_le_pow_right (by omega) (by omega)
    simp only [Nat.div_one]
    omega
  · rw [if_pos h12]
    have hd : 0 < 2 ^ (k - 12) := Nat.pos_pow_of_pos _ (by omega)
    rw [Nat.div_lt_iff_lt_mul hd]
    have hksplit : 2 ^ k = 4096 * 2 ^ (k - 12) := by
      calc 2 ^ k = 2 ^ (12 + (k - 12)) := by congr 1; omega
        _ = 2 ^ 12 * 2 ^ (k - 12) := pow_add 2 12 (k - 12)
        _ = 4096 * 2 ^ (k - 12) := by norm_num
    omega

theorem mortalEncoded_pow (k φ : Nat)
    (hk2 : 2 ≤ k) (hk16 : k ≤ 16) (hφ : φ < 2 ^ k) :
    mortalEncoded (2 ^ k) φ = 16 * (φ / quantizeFactor (2 ^ k)) + (k - 1) := by
  unfold mortalEncoded
  have hm := div_quantizeFactor_lt k φ hk16 hφ
  set m := φ / quantizeFactor (2 ^ k) with hm_def
  rw [u64TrailingZeros_pow]
  have hsub : (k + (2 ^ 32 - 1)) % 2 ^ 32 = k - 1 := by omega
  rw [hsub]
  have hclamp : min (max (k - 1) 1) 15 = k - 1 := by omega
  rw [hclamp]
  have hsh : (m <<< 4) = 2 ^ 4 * m := by
    rw [Nat.shiftLeft_eq]
    ring
  rw [hsh]
  have hor : (k - 1) ||| 2 ^ 4 * m = 2 ^ 4 * m + (k - 1) := by
    rw [Nat.lor_comm]
    exact (Nat.mul_add_lt_is_or (by omega) m).symm
  rw [hor]
  have hlt : 2 ^ 4 * m + (k - 1) < 65536 := by omega
  rw [Nat.mod_eq_of_lt hlt]
  have h16 : 2 ^ 4 * m = 16 * m := by norm_num
  rw [h16]

theorem Mortality.encode_mortal (k φ : Nat) (birth : Option (List Nat))
    (hk2 : 2 ≤ k) (hk16 : k ≤ 16) (hφ : φ < 2 ^ k) :
    Mortality.encode (.Mortal (2 ^ k) φ birth)
      = [(16 * (φ / quantizeFactor (2 ^ k)) + (k - 1)) % 256,
         (16 * (φ / quantizeFactor (2 ^ k)) + (k - 1)) / 256 % 256] := by
  show [mortalEncoded (2 ^ k) φ % 256, mortalEncoded (2 ^ k) φ / 256 % 256] = _
  rw [mortalEncoded_pow k φ hk2 hk16 hφ]

theorem Mortality.decode_cons (first : Nat) (rest : List Nat) :
    Mortality.decode (first :: rest) =
      (if first = 0 then some (.Immortal, rest)
      else
        match rest with
        | [] => none
        | b2 :: r2 =>
          if 4 ≤ 2 <<< ((first + (b2 <<< 8)) % 16)
              ∧ ((first + (b2 <<< 8)) >>> 4)
                  * quantizeFactor (2 <<< ((first + (b2 <<< 8)) % 16))
                < 2 <<< ((first + (b2 <<< 8)) % 16) then
            some (.Mortal (2 <<< ((first + (b2 <<< 8)) % 16))
              (((first + (b2 <<< 8)) >>> 4)
                * quantizeFactor (2 <<< ((first + (b2 <<< 8)) % 16))) none, r2)
          else none) := rfl

theorem Mortality.decode_encode_immortal (rest : List Nat) :
    Mortality.decode (Mortality.encode .Immortal ++ rest) = some (.Immortal, rest) := rfl

theorem Mortality.decode_one (first : Nat) :
    Mortality.decode [first] = if first = 0 then some (.Immortal, []) else none := rfl

theorem Mortality.decode_two (first b2 : Nat) (r2 : List Nat) :
    Mortality.decode (first :: b2 :: r2)
      = if first = 0 then some (.Immortal, b2 :: r2)
        else if 4 ≤ 2 <<< ((first + (b2 <<< 8)) % 16)
            ∧ ((first + (b2 <<< 8)) >>> 4)
                * quantizeFactor (2 <<< ((first + (b2 <<< 8)) % 16))
              < 2 <<< ((first + (b2 <<< 8)) % 16) then
          some (.Mortal (2 <<< ((first + (b2 <<< 8)) % 16))
            (((first + (b2 <<< 8)) >>> 4)
              * quantizeFactor (2 <<< ((first + (b2 <<< 8)) % 16))) none, r2)
        else none := rfl

theorem Mortality.decode_encode_mortal (k φ : Nat) (birth : Option (List Nat))
    (hk2 : 2 ≤ k) (hk16 : k ≤ 16) (hφ : φ < 2 ^ k) (rest : List Nat) :
    Mortality.decode (Mortality.encode (.Mortal (2 ^ k) φ birth) ++ rest)
      = some (.Mortal (2 ^ k)
          (φ / quantizeFactor (2 ^ k) * quantizeFactor (2 ^ k)) none, rest) := by
  rw [Mortality.encode_mortal k φ birth hk2 hk16 hφ]
  have hm := div_quantizeFactor_lt k φ hk16 hφ
  set m := φ / quantizeFactor (2 ^ k) with hm_def
  set e := 16 * m + (k - 1) with he_def
  have he : e < 65536 := by omega
  show Mortality.decode (e % 256 :: e / 256 % 256 :: rest) = _
  rw [Mortality.decode_cons]
  rw [if_neg (by omega)]
  have henc : e % 256 + ((e / 256 % 256) <<< 8) = e := by
    rw [Nat.shiftLeft_eq]
    omega
  simp only [henc]
  have hmod : e % 16 = k - 1 := by omega
  have hperiod : 2 <<< (e % 16) = 2 ^ k := by
    rw [hmod, Nat.shiftLeft_eq]
    have : 2 * 2 ^ (k - 1) = 2 ^ (k - 1 + 1) := (pow_succ' 2 (k - 1)).symm
    rw [this]
    congr 1
    omega
  have hsh : e >>> 4 = m := by
    rw [Nat.shiftRight_eq_div_pow]
    omega
  simp only [hperiod, hsh]
  have hguard : 4 ≤ 2 ^ k ∧ m * quantizeFactor (2 ^ k) < 2 ^ k := by
    constructor
    · calc (4 : Nat) = 2 ^ 2 := by norm_num
        _ ≤ 2 ^ k := Nat.pow_le_pow_right (by omega) hk2
    · calc m * quantizeFactor (2 ^ k) ≤ φ := Nat.div_mul_le_self φ _
        _ < 2 ^ k := hφ
  rw [if_pos hguard]

/-- Rust `struct Payload` from `src/interface/src/transaction/v4.rs`: mortality,
compact-encoded nonce (`u32`) and compact-encoded payment (`u128`). -/
structure Payload where
  mortality : Mortality
  nonce : Nat
  payment : Nat
deriving DecidableEq, Repr

/-- Derived `Encode` of `Payload` (fields in declaration order; `nonce` and
`payment` under `#[codec(compact)]`). -/
def Payload.encode (p : Payload) : List Nat :=
  p.mortality.encode ++ compactEncode p.nonce ++ compactEncode p.payment

/-- Derived `Decode` of `Payload`. -/
def Payload.decode (input : List Nat) : Option (Payload × List Nat) :=
  (Mortality.decode input).bind fun mr =>
    (compactDecode mr.2).bind fun nr =>
      (compactDecode nr.2).bind fun pr =>
        some (⟨mr.1, nr.1, pr.1⟩, pr.2)

/-- Rust `struct ExtraSignaturePayload`: the signed-but-not-transmitted extension
(spec version, transaction version, genesis hash, birth hash). -/
structure ExtraSignaturePayload where
  spec_version : Nat
  tx_version : Nat
  genesis : List Nat
  birth : List Nat
deriving DecidableEq, Repr

/-- Little-endian 4-byte encoding of a `u32`. -/
def u32LE (n : Nat) : List Nat :=
  [n % 256, n / 256 % 256, n / 65536 % 256, n / 16777216 % 256]

/-- Derived `Encode` of `ExtraSignaturePayload` (fields in declaration
order; the two hashes are fixed 32-byte arrays encoded raw). -/
def ExtraSignaturePayload.encode (e : ExtraSignaturePayload) : List Nat :=
  u32LE e.spec_version ++ u32LE e.tx_version ++ e.genesis ++ e.birth

/-! ## BLAKE2b

Modelled from the spec: the interface crate's root helper `blake2b` (used by
`SignaturePayload::using_encoded`) and the `ss58hash` checksum both call the
external `blake2_rfc` crate, i.e. the standard BLAKE2b hash of RFC 7693 with
an empty key.  The implementation below is that standard algorithm over
`Nat` words reduced mod `2^64`.
-/

/-- The eight BLAKE2b initialization vector words. -/
def blakeIV : List Nat :=
  [0x6a09e667f3bcc908, 0xbb67ae8584caa73b, 0x3c6ef372fe94f82b, 0xa54ff53a5f1d36f1,
   0x510e527fade682d1, 0x9b05688c2b3e6c1f, 0x1f83d9abfb41bd6b, 0x5be0cd19137e2179]

/-- The BLAKE2 message schedule (sigma permutations). -/
def blakeSigma : List (List Nat) :=
  [[0, 1, 2, 3, 4, 5, 6, 7, 8, 9, 10, 11, 12, 13, 14, 15],
   [14, 10, 4, 8, 9, 15, 13, 6, 1, 12, 0, 2, 11, 7, 5, 3],
   [11, 8, 12, 0, 5, 2, 15, 13, 10, 14, 3, 6, 7, 1, 9, 4],
   [7, 9, 3, 1, 13, 12, 11, 14, 2, 6, 5, 10, 4, 0, 15, 8],
   [9, 0, 5, 7, 2, 4, 10, 15, 14, 1, 11, 12, 6, 8, 3, 13],
   [2, 12, 6, 10, 0, 11, 8, 3, 4, 13, 7, 5, 15, 14, 1, 9],
   [12, 5, 1, 15, 14, 13, 4, 10, 0, 7, 6, 3, 9, 2, 8, 11],
   [13, 11, 7, 14, 12, 1, 3, 9, 5, 0, 15, 4, 8, 6, 2, 10],
   [6, 15, 14, 9, 11, 3, 0, 8, 12, 2, 13, 7, 1, 4, 10, 5],
   [10, 2, 8, 4, 7, 6, 1, 5, 15, 11, 9, 14, 3, 12, 13, 0]]

/-- Wrapping addition on 64-bit words. -/
def wadd (a b : Nat) : Nat :=
  (a + b) % 2 ^ 64

/-- Rotate right on 64-bit words. -/
def wrotr (x n : Nat) : Nat :=
  ((x >>> n) ||| (x <<< (64 - n))) % 2 ^ 64

/-- The BLAKE2b `G` mixing function on the 16-word working vector. -/
def blakeG (v : List Nat) (a b c d x y : Nat) : List Nat :=
  let va := wadd (wadd (v.getD a 0) (v.getD b 0)) x
  let vd := wrotr ((v.getD d 0) ^^^ va) 32
  let vc := wadd (v.getD c 0) vd
  let vb := wrotr ((v.getD b 0) ^^^ vc) 24
  let va2 := wadd (wadd va vb) y
  let vd2 := wrotr (vd ^^^ va2) 16
  let vc2 := wadd vc vd2
  let vb2 := wrotr (vb ^^^ vc2) 63
  (((v.set a va2).set b vb2).set c vc2).set d vd2

/-- One BLAKE2b round: eight `G` applications under the schedule `s`. -/
def blakeRound (m v s : List Nat) : List Nat :=
  let v1 := blakeG v 0 4 8 12 (m.getD (s.getD 0 0) 0) (m.getD (s.getD 1 0) 0)
  let v2 := blakeG v1 1 5 9 13 (m.getD (s.getD 2 0) 0) (m.getD (s.getD 3 0) 0)
  let v3 := blakeG v2 2 6 10 14 (m.getD (s.getD 4 0) 0) (m.getD (s.getD 5 0) 0)
  let v4 := blakeG v3 3 7 11 15 (m.getD (s.getD 6 0) 0) (m.getD (s.getD 7 0) 0)
  let v5 := blakeG v4 0 5 10 15 (m.getD (s.getD 8 0) 0) (m.getD (s.getD 9 0) 0)
  let v6 := blakeG v5 1 6 11 12 (m.getD (s.getD 10 0) 0) (m.getD (s.getD 11 0) 0)
  let v7 := blakeG v6 2 7 8 13 (m.getD (s.getD 12 0) 0) (m.getD (s.getD 13 0) 0)
  blakeG v7 3 4 9 14 (m.getD (s.getD 14 0) 0) (m.getD (s.getD 15 0) 0)

/-- The BLAKE2b compression function `F` on a 128-byte block, with byte
counter `t` and finalization flag. -/
def blakeCompress (h block : List Nat) (t : Nat) (last : Bool) : List Nat :=
  let m := (List.range 16).map (fun i => digitsVal 256 ((block.drop (8 * i)).take 8))
  let v0 := h ++ blakeIV
  let v1 := v0.set 12 ((v0.getD 12 0) ^^^ (t % 2 ^ 64))
  let v2 := v1.set 13 ((v1.getD 13 0) ^^^ (t / 2 ^ 64 % 2 ^ 64))
  let v3 := if last then v2.set 14 ((v2.getD 14 0) ^^^ (2 ^ 64 - 1)) else v2
  let vf := (List.range 12).foldl (fun v i => blakeRound m v (blakeSigma.getD (i % 10) [])) v3
  (List.range 8).map (fun i => (h.getD i 0) ^^^ ((vf.getD i 0) ^^^ (vf.getD (i + 8) 0)))

/-- Split the message into 128-byte blocks, zero-padding the last one.
Structurally recursive on explicit fuel. -/
def blakeChunks : Nat → List Nat → List (List Nat)
  | _, [] => []
  | 0, l => [l ++ List.replicate (128 - l.length) 0]
  | fuel + 1, l =>
    if l.length ≤ 128 then [l ++ List.replicate (128 - l.length) 0]
    else l.take 128 :: blakeChunks fuel (l.drop 128)

/-- Sequentially compress all blocks; a non-final block at offset `done`
uses counter `done + 128`, the final block uses the total length `ll`. -/
def blakeLoop (ll : Nat) : List Nat → Nat → List (List Nat) → List Nat
  | h, _, [] => h
  | h, _, [b] => blakeCompress h b ll true
  | h, done, b :: bs => blakeLoop ll (blakeCompress h b (done + 128) false) (done + 128) bs

/-- The eight little-endian bytes of a 64-bit word. -/
def wordBytesLE (w : Nat) : List Nat :=
  [w % 256, w / 256 % 256, w / 65536 % 256, w / 16777216 % 256,
   w / 4294967296 % 256, w / 1099511627776 % 256, w / 281474976710656 % 256,
   w / 72057594037927936 % 256]

/-- BLAKE2b with digest length `nn` bytes (1–64) and no key. -/
def blake2b (nn : Nat) (data : List Nat) : List Nat :=
  let h0 := blakeIV.set 0 (((blakeIV.getD 0 0) ^^^ 0x01010000) ^^^ nn)
  let blocks := if data.isEmpty then [List.replicate 128 0] else blakeChunks data.length data
  let hf := blakeLoop data.length h0 0 blocks
  (wordBytesLE (hf.getD 0 0) ++ wordBytesLE (hf.getD 1 0) ++ wordBytesLE (hf.getD 2 0)
    ++ wordBytesLE (hf.getD 3 0) ++ wordBytesLE (hf.getD 4 0) ++ wordBytesLE (hf.getD 5 0)
    ++ wordBytesLE (hf.getD 6 0) ++ wordBytesLE (hf.getD 7 0)).take nn

/-- The crate-root helper `blake2b` (a 32-byte BLAKE2b-256 digest).
Modelled from the spec: the crate root calling `blake2b(32, &[], data)` is
not under `src/`; the spec fixes it as the 32-byte BLAKE2b digest. -/
def blake2b256 (data : List Nat) : List Nat :=
  blake2b 32 data

/-- BLAKE2b-512, as used by the SS58 checksum (`ss58hash`). -/
def blake2b512 (data : List Nat) : List Nat :=
  blake2b 64 data

theorem blake2b_length (nn : Nat) (data : List Nat) (h : nn ≤ 64) :
    (blake2b nn data).length = nn := by
  unfold blake2b
  simp only [List.length_take, List.length_append]
  simp [wordBytesLE]
  omega

theorem wordBytesLE_lt (w : Nat) : ∀ x ∈ wordBytesLE w, x < 256 := by
  intro x hx
  simp only [wordBytesLE, List.mem_cons, List.not_mem_nil, or_false] at hx
  rcases hx with rfl | rfl | rfl | rfl | rfl | rfl | rfl | rfl <;> exact Nat.mod_lt _ (by omega)

theorem blake2b_lt (nn : Nat) (data : List Nat) :
    ∀ x ∈ blake2b nn data, x < 256 := by
  intro x hx
  unfold blake2b at hx
  have hx2 := List.take_subset _ _ hx
  simp only [List.mem_append] at hx2
  rcases hx2 with ((((((h | h) | h) | h) | h) | h) | h) | h <;>
    exact wordBytesLE_lt _ x h

/-! ## Transaction v4 (`src/interface/src/transaction/v4.rs`)

The Rust `Transaction` is generic in its components; the claims concern the
`PolkadotSignedExtrinsic` instantiation,
`Transaction<AccountId, Call, MultiSignature, Payload>`, which is what is
embedded here, still generic over the call type together with its SCALE
encoder/decoder.
-/

/-- Rust `const TX_VERSION: u32 = 4`. -/
def TX_VERSION : Nat := 4

/-- Rust `struct Transaction { signature: Option<(Address, Signature, Extra)>,
call }` at the `PolkadotSignedExtrinsic` instantiation. -/
structure Transaction (Call : Type) where
  signature : Option (AccountId × MultiSignature × Payload)
  call : Call
deriving DecidableEq, Repr

/-- Rust `Transaction::new_unsigned`. -/
def Transaction.new_unsigned {Call : Type} (call : Call) : Transaction Call :=
  ⟨none, call⟩

/-- The body assembled by `Transaction`'s `Encode` implementation before the
outer length prefix: version byte `132` (signed) or `4` (unsigned), the
encoded signature triple if present, then the encoded call. -/
def transactionBody {Call : Type} (encCall : Call → List Nat)
    (t : Transaction Call) : List Nat :=
  (match t.signature with
   | some (addr, sig, payload) => 132 :: (addr.encode ++ sig.encode ++ payload.encode)
   | none => [4]) ++ encCall t.call

/-- Rust `Transaction`'s `Encode`: the body, length-prefixed like `Vec<u8>`
(SCALE compact length followed by the raw bytes). -/
def Transaction.encode {Call : Type} (encCall : Call → List Nat)
    (t : Transaction Call) : List Nat :=
  compactEncode (transactionBody encCall t).length ++ transactionBody encCall t

/-- The part of `Transaction`'s `Decode` after the discarded length prefix:
dispatch on the version byte — `132` signed, `4` unsigned, anything else an
error — then decode the components. -/
def transactionDecodeBody {Call : Type}
    (decCall : List Nat → Option (Call × List Nat)) :
    List Nat → Option (Transaction Call × List Nat)
  | [] => none
  | b :: r2 =>
    if b = 132 then
      (AccountId.decode r2).bind fun ar =>
        (MultiSignature.decode ar.2).bind fun sr =>
          (Payload.decode sr.2).bind fun pr =>
            (decCall pr.2).bind fun cr =>
              some (⟨some (ar.1, sr.1, pr.1), cr.1⟩, cr.2)
    else if b = 4 then
      (decCall r2).bind fun cr => some (⟨none, cr.1⟩, cr.2)
    else none

/-- Rust `Transaction`'s `Decode`: reads and discards the compact length (the
source decodes a `Vec<()>`, which consumes the length and nothing else),
then decodes the body. -/
def Transaction.decode {Call : Type} (decCall : List Nat → Option (Call × List Nat))
    (input : List Nat) : Option (Transaction Call × List Nat) :=
  (compactDecode input).bind fun lr => transactionDecodeBody decCall lr.2

/-- The concatenated SCALE encodings of call, `Payload` and
`ExtraSignaturePayload` — the `sig_bytes` of the spec. -/
def signaturePayloadRaw {Call : Type} (encCall : Call → List Nat) (call : Call)
    (payload : Payload) (extra : ExtraSignaturePayload) : List Nat :=
  encCall call ++ payload.encode ++ extra.encode

/-- The bytes `SignaturePayload::using_encoded` hands to the signer: the raw
concatenation if it is at most 256 bytes, otherwise its 32-byte BLAKE2b
digest (`if payload.len() > 256 { f(&blake2b(&payload)) } else { f(payload) }`). -/
def signaturePayloadBytes {Call : Type} (encCall : Call → List Nat) (call : Call)
    (payload : Payload) (extra : ExtraSignaturePayload) : List Nat :=
  if 256 < (signaturePayloadRaw encCall call payload extra).length then
    blake2b256 (signaturePayloadRaw encCall call payload extra)
  else
    signaturePayloadRaw encCall call payload extra

namespace kusama

/-- Modelled from the spec: the `runtime` module holding
`kusama::SPEC_VERSION` is not under `src/`; the spec only says a latest
known default is provided, so the value is a representative constant. -/
def SPEC_VERSION : Nat := 9080

end kusama

namespace polkadot

/-- Modelled from the spec: the `runtime` module holding
`polkadot::SPEC_VERSION` is not under `src/`. -/
def SPEC_VERSION : Nat := 9050

end polkadot

/-- Rust `struct SignedTransactionBuilder` (all-consuming builder state). -/
structure SignedTransactionBuilder (Call : Type) where
  signer : Option MultiKeyPair
  call : Option Call
  nonce : Option Nat
  payment : Option Nat
  network : Option Network
  mortality : Mortality
  spec_version : Option Nat

/-- Rust `SignedTransactionBuilder::new` / `Default`. -/
def SignedTransactionBuilder.new (Call : Type) : SignedTransactionBuilder Call :=
  ⟨none, none, none, none, none, .Immortal, none⟩

/-- Rust `SignedTransactionBuilder::build`.  The mandatory fields are checked in
source order; `spec_version` defaults for Kusama/Polkadot and is mandatory
otherwise; a mortal transaction without a birth hash is a
`BuilderMissingField` error.  The external cryptographic signing of the
signature-payload bytes is passed in as `sign`; the final
`signer.into()` conversion panics on an ECDSA signer
(`MultiKeyPair.toAccountId`). -/
def SignedTransactionBuilder.build {Call : Type} (encCall : Call → List Nat)
    (sign : MultiKeyPair → List Nat → MultiSignature)
    (b : SignedTransactionBuilder Call) : RustOutcome Error (Transaction Call) :=
  match b.signer with
  | none => .err (.BuilderMissingField ("signer"))
  | some signer =>
    match b.call with
    | none => .err (.BuilderMissingField ("call"))
    | some call =>
      match b.nonce with
      | none => .err (.BuilderMissingField ("nonce"))
      | some nonce =>
        match b.payment with
        | none => .err (.BuilderMissingField ("payment"))
        | some payment =>
          match b.network with
          | none => .err (.BuilderMissingField ("network"))
          | some network =>
            match (match network with
                   | .Kusama => some (b.spec_version.getD kusama.SPEC_VERSION)
                   | .Polkadot => some (b.spec_version.getD polkadot.SPEC_VERSION)
                   | _ => b.spec_version) with
            | none => .err (.BuilderMissingField ("spec_version"))
            | some spec_version =>
              match (match b.mortality with
                     | .Immortal => some network.genesis
                     | .Mortal _ _ birth => birth) with
              | none => .err (.BuilderMissingField ("no birth block in Mortality"))
              | some birth =>
                let payload : Payload := ⟨b.mortality, nonce, payment⟩
                let extra : ExtraSignaturePayload :=
                  ⟨spec_version, TX_VERSION, network.genesis, birth⟩
                let sig := sign signer (signaturePayloadBytes encCall call payload extra)
                match signer.toAccountId with
                | .ok addr => .ok ⟨some (addr, sig, payload), call⟩
                | _ => .panicked

/-! ## Base58 and SS58 (`src/interface/src/common/ss58format.rs`)

Base58 is provided by the external `base58` crate; it is embedded as the
standard Bitcoin-alphabet Base58: leading zero bytes map to leading `'1'`
characters, the remaining bytes are one big-endian base-256 number written
in big-endian base-58 digits.
-/

/-- The Base58 (Bitcoin) alphabet. -/
def b58Alphabet : List Char :=
  "123456789ABCDEFGHJKLMNPQRSTUVWXYZabcdefghijkmnopqrstuvwxyz".toList

/-- Base58 encoding (`ToBase58::to_base58`). -/
def toBase58 (bytes : List Nat) : List Char :=
  List.replicate (bytes.takeWhile (· = 0)).length '1'
    ++ (natDigits 58 (bytes.foldl (fun acc byt => acc * 256 + byt) 0)).reverse.map
        (fun d => b58Alphabet.getD d '1')

/-- Base58 decoding (`FromBase58::from_base58`); `none` on a character
outside the alphabet. -/
def fromBase58 (s : List Char) : Option (List Nat) :=
  match s.mapM (fun c => b58Alphabet.indexOf? c) with
  | none => none
  | some vals =>
    some (List.replicate (vals.takeWhile (· = 0)).length 0
      ++ (natDigits 256 (vals.foldl (fun acc v => acc * 58 + v) 0)).reverse)

/-- The bytes of the `"SS58PRE"` hash prefix. -/
def ss58Pre : List Nat :=
  [83, 83, 53, 56, 80, 82, 69]

/-- Rust `ss58hash`: BLAKE2b-512 of `"SS58PRE" ‖ data`. -/
def ss58hash (data : List Nat) : List Nat :=
  blake2b512 (ss58Pre ++ data)

/-- The one- or two-byte network identifier encoding used by
`to_string_with_version` (`ident` is the already-masked 14-bit value). -/
def identBytes (ident : Nat) : List Nat :=
  if ident ≤ 63 then [ident]
  else [((ident &&& 0b0000000011111100) >>> 2) ||| 0b01000000,
        (ident >>> 8) ||| ((ident &&& 0b11) <<< 6)]

/-- Rust `Ss58Codec::to_string_with_version` for a 32-byte payload (the
`AccountId` instantiation): mask the version to 14 bits, prepend the
identifier bytes, append the first two bytes of the `ss58hash` checksum,
Base58-encode.  The Rust `Ss58AddressFormat` is identified with its `u16`
identifier value (the conversions in both directions preserve it). -/
def toStringWithVersion (payload : List Nat) (version : Nat) : List Char :=
  toBase58 ((identBytes (version &&& 0b0011111111111111) ++ payload)
    ++ (ss58hash (identBytes (version &&& 0b0011111111111111) ++ payload)).take 2)

/-- The length and checksum validation shared by both prefix shapes of
`from_string_with_version`: the total length must be
`prefix_len + body_len + CHECKSUM_LEN` and the carried checksum must equal
the recomputed truncated `ss58hash`; both failures are `panic!()`s. -/
def fromDataParsed (data : List Nat) (plen ident : Nat) :
    RustOutcome Unit (List Nat × Nat) :=
  if data.length ≠ plen + 32 + 2 then .panicked
  else if data.drop (32 + plen) ≠ (ss58hash (data.take (32 + plen))).take 2 then .panicked
  else .ok ((data.drop plen).take 32, ident)

/-- The pure part of `Ss58Codec::from_string_with_version` after Base58
decoding, for a 32-byte body.  Every failure branch in the source is a
`panic!()`, modelled as `RustOutcome.panicked`. -/
def fromDataWithVersion (data : List Nat) : RustOutcome Unit (List Nat × Nat) :=
  if data.length < 2 then .panicked
  else if data.getD 0 0 ≤ 63 then
    fromDataParsed data 1 (data.getD 0 0)
  else if data.getD 0 0 ≤ 127 then
    fromDataParsed data 2
      (((((data.getD 0 0) <<< 2) % 256) ||| ((data.getD 1 0) >>> 6))
        ||| (((data.getD 1 0) &&& 0b00111111) <<< 8))
  else .panicked

/-- Rust `Ss58Codec::from_string_with_version` for a 32-byte body: Base58-decode
(`unwrap`, so a panic on bad input) then parse; returns the payload bytes
and the identified network identifier. -/
def fromStringWithVersion (s : List Char) : RustOutcome Unit (List Nat × Nat) :=
  match fromBase58 s with
  | none => .panicked
  | some data => fromDataWithVersion data

/-- Rust `AccountId::from_ss58_address`: delegates to the SS58 decoder (the
external `sp_core` implementation of the same SS58 format, which returns a
`Result`) and immediately `unwrap`s it, so every decode failure is a
panic. -/
def AccountId.from_ss58_address (s : List Char) : RustOutcome Unit AccountId :=
  match fromStringWithVersion s with
  | .ok (payload, _) => .ok ⟨payload⟩
  | _ => .panicked

/-! ## Metadata version dispatch (`src/metadata/src/lib.rs`,
`src/metadata/src/version/v13.rs`) -/

/-- Rust `enum StorageEntryModifier` (v13). -/
inductive StorageEntryModifier where
  | Optional
  | Default
deriving DecidableEq, Repr

/-- Rust `enum StorageHasher` (v13). -/
inductive StorageHasher where
  | Blake2_128
  | Blake2_256
  | Blake2_128Concat
  | Twox128
  | Twox256
  | Twox64Concat
  | Identity
deriving DecidableEq, Repr

/-- Rust `enum StorageEntryType` (v13). -/
inductive StorageEntryType where
  | Plain (ty : String)
  | Map (hasher : StorageHasher) (key value : String) (unused : Bool)
  | DoubleMap (hasher : StorageHasher) (key1 key2 value : String)
      (key2_hasher : StorageHasher)
  | NMap (keys : String) (hashers : List StorageHasher) (value : String)
deriving DecidableEq, Repr

/-- Rust `struct StorageEntryMetadata` (v13). -/
structure StorageEntryMetadata where
  name : String
  modifier : StorageEntryModifier
  ty : StorageEntryType
  default : List Nat
  documentation : List String
deriving DecidableEq, Repr

/-- Rust `struct StorageMetadata` (v13); the first field is called `prefix` in
the source. -/
structure StorageMetadata where
  prefixName : String
  entries : List StorageEntryMetadata
deriving DecidableEq, Repr

/-- Rust `struct FunctionArgumentMetadata` (v13). -/
structure FunctionArgumentMetadata where
  name : String
  ty : String
deriving DecidableEq, Repr

/-- Rust `struct FunctionMetadata` (v13). -/
structure FunctionMetadata where
  name : String
  arguments : List FunctionArgumentMetadata
  documentation : List String
deriving DecidableEq, Repr

/-- Rust `struct EventMetadata` (v13). -/
structure EventMetadata where
  name : String
  arguments : List String
  documentation : List String
deriving DecidableEq, Repr

/-- Rust `struct ModuleConstantMetadata` (v13). -/
structure ModuleConstantMetadata where
  name : String
  ty : String
  value : List Nat
  documentation : List String
deriving DecidableEq, Repr

/-- Rust `struct ErrorMetadata` (v13). -/
structure ErrorMetadata where
  name : String
  documentation : List String
deriving DecidableEq, Repr

/-- Rust `struct ModuleMetadata` (v13). -/
structure ModuleMetadata where
  name : String
  storage : Option StorageMetadata
  calls : Option (List FunctionMetadata)
  events : Option (List EventMetadata)
  constants : List ModuleConstantMetadata
  errors : List ErrorMetadata
  index : Nat
deriving DecidableEq, Repr

/-- Rust `struct ExtrinsicMetadata` (v13). -/
structure ExtrinsicMetadata where
  version : Nat
  signed_extensions : List String
deriving DecidableEq, Repr

/-- Rust `struct MetadataV13`. -/
structure MetadataV13 where
  modules : List ModuleMetadata
  extrinsics : ExtrinsicMetadata
deriving DecidableEq, Repr

/-- Rust `enum MetadataVersion`: versions 0–12 are unit markers, only V13
carries data. -/
inductive MetadataVersion where
  | V0 | V1 | V2 | V3 | V4 | V5 | V6 | V7 | V8 | V9 | V10 | V11 | V12
  | V13 (m : MetadataV13)
deriving DecidableEq, Repr

/-- Rust `MetadataVersion::into_latest`: the V13 payload, or a categorized
`InvalidMetadataVersion` error on any other version. -/
def MetadataVersion.into_latest : MetadataVersion → RustOutcome Unit MetadataV13
  | .V13 m => .ok m
  | _ => .err ()

/-- Rust `MetadataVersion::into_inner` (`src/metadata/src/lib.rs:247-252`): the
V13 payload, or `panic!()` on any other version. -/
def MetadataVersion.into_inner : MetadataVersion → RustOutcome Unit MetadataV13
  | .V13 m => .ok m
  | _ => .panicked

/-! ## Collector catch-up range (`src/collector/src/lib.rs`) -/

/-- Rust `const BLOCK_HASH_LIMIT: u64 = 30`. -/
def BLOCK_HASH_LIMIT : Nat := 30

/-- The block-number list requested in one `chain_getBlockHash` batch by an
iteration of `do_run`'s loop: `(from..=to).collect()` with
`from = last_block` and `to = latest.min(last_block + BLOCK_HASH_LIMIT)`
(empty when `to < from`). -/
def catchupRange (last_block latest : Nat) : List Nat :=
  List.range' last_block (min latest (last_block + BLOCK_HASH_LIMIT) + 1 - last_block)

/-! ### Base58 round-trip -/

theorem digitsVal_append (b : Nat) (l1 l2 : List Nat) :
    digitsVal b (l1 ++ l2) = digitsVal b l1 + b ^ l1.length * digitsVal b l2 := by
  induction l1 with
  | nil => simp [digitsVal]
  | cons d ds ih =>
    simp only [List.cons_append, digitsVal, List.length_cons, pow_succ]
    rw [show ds.append l2 = ds ++ l2 from rfl, ih]
    ring

theorem digitsVal_replicate_zero (b z : Nat) :
    digitsVal b (List.replicate z 0) = 0 := by
  induction z with
  | zero => rfl
  | succ z ih => simp [List.replicate_succ, digitsVal, ih]

theorem foldl_digits (B : Nat) (l : List Nat) :
    ∀ acc, l.foldl (fun a d => a * B + d) acc
      = acc * B ^ l.length + digitsVal B l.reverse := by
  induction l with
  | nil => intro acc; simp [digitsVal]
  | cons d ds ih =>
    intro acc
    simp only [List.foldl_cons, ih, List.reverse_cons, digitsVal_append,
      List.length_reverse, List.length_cons, digitsVal]
    ring

theorem takeWhile_zero_eq_replicate (l : List Nat) :
    l.takeWhile (· = 0) = List.replicate (l.takeWhile (· = 0)).length 0 := by
  apply List.eq_replicate_of_mem
  intro x hx
  have := List.mem_takeWhile_imp hx
  simpa using this

theorem takeWhile_zero_replicate_append (z : Nat) (D : List Nat)
    (hD : D.head? ≠ some 0) :
    ((List.replicate z 0 ++ D).takeWhile (· = 0)).length = z := by
  induction z with
  | zero =>
    simp only [List.replicate_zero, List.nil_append]
    cases D with
    | nil => rfl
    | cons d ds =>
      simp only [List.head?_cons] at hD
      have hd : d ≠ 0 := fun h => hD (by rw [h])
      rw [List.takeWhile_cons_of_neg (by simpa using hd)]
      rfl
  | succ z ih =>
    rw [List.replicate_succ, List.cons_append,
      List.takeWhile_cons_of_pos (by simp)]
    simp only [List.length_cons]
    rw [ih]

theorem b58_indexOf_one : b58Alphabet.indexOf? '1' = some 0 := by decide

theorem b58_indexOf_getD :
    ∀ d, d < 58 → b58Alphabet.indexOf? (b58Alphabet.getD d '1') = some d := by
  decide

theorem mapM_indexOf_round (z : Nat) (D : List Nat) (hD : ∀ d ∈ D, d < 58) :
    (List.replicate z '1' ++ D.map (fun d => b58Alphabet.getD d '1')).mapM
      (fun c => b58Alphabet.indexOf? c) = some (List.replicate z 0 ++ D) := by
  rw [List.mapM_append]
  have hz : (List.replicate z '1').mapM (fun c => b58Alphabet.indexOf? c)
      = some (List.replicate z 0) := by
    induction z with
    | zero => rfl
    | succ z ih =>
      rw [List.replicate_succ, List.mapM_cons, ih, b58_indexOf_one,
        List.replicate_succ]
      rfl
  have hDm : (D.map (fun d => b58Alphabet.getD d '1')).mapM
      (fun c => b58Alphabet.indexOf? c) = some D := by
    induction D with
    | nil => rfl
    | cons d ds ih =>
      rw [List.map_cons, List.mapM_cons,
        b58_indexOf_getD d (hD d (List.mem_cons_self d ds)),
        ih (fun x hx => hD x (List.mem_cons_of_mem d hx))]
      rfl
  rw [hz, hDm]
  rfl

theorem fromBase58_toBase58 (bytes : List Nat) (hb : ∀ x ∈ bytes, x < 256) :
    fromBase58 (toBase58 bytes) = some bytes := by
  have hsplit : List.replicate (bytes.takeWhile (· = 0)).length 0
      ++ bytes.dropWhile (· = 0) = bytes := by
    conv_rhs => rw [← List.takeWhile_append_dropWhile (p := (· = 0)) (l := bytes)]
    rw [← takeWhile_zero_eq_replicate]
  set z := (bytes.takeWhile (· = 0)).length with hz_def
  set tl := bytes.dropWhile (· = 0) with htl_def
  have htl_head : tl.head? ≠ some 0 := by
    intro hhead
    have := List.head?_dropWhile_not (· = 0) bytes
    rw [← htl_def, hhead] at this
    simp at this
  have htl_lt : ∀ x ∈ tl, x < 256 := by
    intro x hx
    exact hb x (hsplit ▸ List.mem_append_right _ hx)
  -- the encoded number
  have hval : bytes.foldl (fun acc byt => acc * 256 + byt) 0
      = digitsVal 256 tl.reverse := by
    rw [foldl_digits]
    rw [← hsplit, List.reverse_append, digitsVal_append, List.reverse_replicate,
      digitsVal_replicate_zero]
    ring
  set n := digitsVal 256 tl.reverse with hn_def
  set D := (natDigits 58 n).reverse with hD_def
  have hD_lt : ∀ d ∈ D, d < 58 := by
    intro d hd
    exact natDigits_lt 58 (by omega) n d (List.mem_reverse.mp hd)
  have hD_head : D.head? ≠ some 0 := by
    rw [hD_def, List.head?_reverse]
    exact natDigits_getLast_ne_zero 58 (by omega) n
  -- unfold the encoder
  have henc : toBase58 bytes
      = List.replicate z '1' ++ D.map (fun d => b58Alphabet.getD d '1') := by
    unfold toBase58
    rw [hval]
  rw [henc]
  unfold fromBase58
  rw [mapM_indexOf_round z D hD_lt]
  have hcount : ((List.replicate z 0 ++ D).takeWhile (· = 0)).length = z :=
    takeWhile_zero_replicate_append z D hD_head
  have hfold : (List.replicate z 0 ++ D).foldl (fun acc v => acc * 58 + v) 0 = n := by
    rw [foldl_digits, List.reverse_append, digitsVal_append, List.reverse_replicate]
    rw [digitsVal_replicate_zero, hD_def, List.reverse_reverse,
      digitsVal_natDigits 58 (by omega) n]
    ring
  simp only [hcount, hfold]
  have hback : (natDigits 256 n).reverse = tl := by
    rw [hn_def, natDigits_digitsVal 256 (by omega) tl.reverse
      (fun x hx => htl_lt x (List.mem_reverse.mp hx))
      (by rw [List.getLast?_reverse]; exact htl_head)]
    exact List.reverse_reverse tl
  rw [hback, hsplit]

/-! ### SS58 round-trip -/

theorem and_252_eq (x : Nat) : x &&& 252 = x / 4 % 64 * 4 := by
  apply Nat.eq_of_testBit_eq
  intro i
  rw [Nat.testBit_and]
  have hr : x / 4 % 64 * 4 = (x >>> 2 % 2 ^ 6) <<< 2 := by
    rw [Nat.shiftLeft_eq, Nat.shiftRight_eq_div_pow]
    norm_num
  rw [hr, Nat.testBit_shiftLeft, Nat.testBit_mod_two_pow, Nat.testBit_shiftRight]
  rcases Nat.lt_or_ge i 8 with h8 | h8
  · interval_cases i <;> simp [Nat.testBit_to_div_mod]
  · have h252 : Nat.testBit 252 i = false := by
      apply Nat.testBit_lt_two_pow
      calc (252 : Nat) < 2 ^ 8 := by norm_num
        _ ≤ 2 ^ i := Nat.pow_le_pow_right (by omega) h8
    rw [h252]
    have hi2 : decide (i - 2 < 6) = false := by
      simp
      omega
    rw [hi2]
    simp

theorem identBytes_ge64 (ident : Nat) (h64 : 64 ≤ ident) (hlt : ident < 16384) :
    identBytes ident = [64 + ident / 4 % 64, ident / 256 + ident % 4 * 64] := by
  unfold identBytes
  rw [if_neg (by omega)]
  have hb0 : ((ident &&& 252) >>> 2) ||| 64 = 64 + ident / 4 % 64 := by
    rw [show (0b0000000011111100 : Nat) = 252 from rfl] at *
    rw [and_252_eq, Nat.shiftRight_eq_div_pow]
    have hdiv : ident / 4 % 64 * 4 / 2 ^ 2 = ident / 4 % 64 := by omega
    rw [hdiv, Nat.lor_comm]
    calc (64 : Nat) ||| ident / 4 % 64
        = 2 ^ 6 * 1 ||| ident / 4 % 64 := by norm_num
      _ = 2 ^ 6 * 1 + ident / 4 % 64 := (Nat.mul_add_lt_is_or (by omega) 1).symm
      _ = 64 + ident / 4 % 64 := by norm_num
  have hb1 : (ident >>> 8) ||| ((ident &&& 3) <<< 6)
      = ident / 256 + ident % 4 * 64 := by
    rw [show (0b11 : Nat) = 3 from rfl]
    rw [Nat.shiftRight_eq_div_pow, Nat.shiftLeft_eq]
    rw [show (3 : Nat) = 2 ^ 2 - 1 from rfl, Nat.and_pow_two_sub_one_eq_mod]
    rw [Nat.lor_comm]
    rw [show ident % 2 ^ 2 * 2 ^ 6 = 2 ^ 6 * (ident % 2 ^ 2) from by ring]
    rw [← Nat.mul_add_lt_is_or (show ident / 2 ^ 8 < 2 ^ 6 from by omega) (ident % 2 ^ 2)]
    omega
  rw [show (0b0000000011111100 : Nat) = 252 from rfl, show (0b11 : Nat) = 3 from rfl,
    show (0b01000000 : Nat) = 64 from rfl]
  rw [hb0, hb1]

theorem identBytes_lt (ident : Nat) (hlt : ident < 16384) :
    ∀ x ∈ identBytes ident, x < 256 := by
  intro x hx
  rcases Nat.lt_or_ge ident 64 with h64 | h64
  · unfold identBytes at hx
    rw [if_pos (by omega)] at hx
    simp at hx
    omega
  · rw [identBytes_ge64 ident h64 hlt] at hx
    simp at hx
    rcases hx with rfl | rfl <;> omega

theorem identDecode_eq (ident : Nat) (h64 : 64 ≤ ident) (hlt : ident < 16384) :
    (((((64 + ident / 4 % 64) <<< 2) % 256)
        ||| ((ident / 256 + ident % 4 * 64) >>> 6))
      ||| (((ident / 256 + ident % 4 * 64) &&& 63) <<< 8)) = ident := by
  have hA : ((64 + ident / 4 % 64) <<< 2) % 256 = ident / 4 % 64 * 4 := by
    rw [Nat.shiftLeft_eq]
    omega
  have hB : (ident / 256 + ident % 4 * 64) >>> 6 = ident % 4 := by
    rw [Nat.shiftRight_eq_div_pow]
    omega
  have hC : (ident / 256 + ident % 4 * 64) &&& 63 = ident / 256 := by
    rw [show (63 : Nat) = 2 ^ 6 - 1 from rfl, Nat.and_pow_two_sub_one_eq_mod]
    omega
  rw [hA, hB, hC]
  have hlower : ident / 4 % 64 * 4 ||| ident % 4 = ident % 256 := by
    rw [show ident / 4 % 64 * 4 = 2 ^ 2 * (ident / 4 % 64) from by ring]
    rw [← Nat.mul_add_lt_is_or (show ident % 4 < 2 ^ 2 from by omega) (ident / 4 % 64)]
    omega
  rw [hlower, Nat.shiftLeft_eq, Nat.lor_comm]
  rw [show ident / 256 * 2 ^ 8 = 2 ^ 8 * (ident / 256) from by ring]
  rw [← Nat.mul_add_lt_is_or (show ident % 256 < 2 ^ 8 from by omega) (ident / 256)]
  omega

theorem ss58hash_lt (data : List Nat) : ∀ x ∈ ss58hash data, x < 256 := by
  intro x hx
  exact blake2b_lt 64 _ x hx

theorem fromDataWithVersion_ok (ib payload ck : List Nat) (ident : Nat)
    (hib : (ident ≤ 63 ∧ ib = [ident])
      ∨ (64 ≤ ident ∧ ident < 16384
          ∧ ib = [64 + ident / 4 % 64, ident / 256 + ident % 4 * 64]))
    (hlen : payload.length = 32)
    (hck : ck = (ss58hash (ib ++ payload)).take 2) :
    fromDataWithVersion ((ib ++ payload) ++ ck) = .ok (payload, ident) := by
  have hcklen : ck.length = 2 := by
    rw [hck]
    have := blake2b_length 64 (ss58Pre ++ (ib ++ payload)) (by omega)
    simp only [ss58hash, blake2b512]
    rw [List.length_take, this]
    omega
  rcases hib with ⟨hle, rfl⟩ | ⟨h64, hlt, rfl⟩
  · -- one-byte prefix
    set data := (([ident] ++ payload) ++ ck) with hdata
    have hdl : data.length = 35 := by
      simp [hdata, hlen, hcklen]
    have hd0 : data.getD 0 0 = ident := by
      simp [hdata]
    unfold fromDataWithVersion
    rw [if_neg (by omega), hd0, if_pos hle]
    unfold fromDataParsed
    rw [if_neg (by omega)]
    have htake : data.take (32 + 1) = [ident] ++ payload := by
      rw [hdata, List.take_left' (by simp [hlen])]
    have hdrop : data.drop (32 + 1) = ck := by
      rw [hdata, List.drop_left' (by simp [hlen])]
    rw [htake, hdrop, if_neg (by rw [hck]; simp)]
    have hdrop1 : data.drop 1 = payload ++ ck := by
      rw [hdata, List.append_assoc, List.drop_left' (by simp)]
    rw [hdrop1, List.take_left' hlen]
  · -- two-byte prefix
    set d0 := 64 + ident / 4 % 64 with hd0_def
    set d1 := ident / 256 + ident % 4 * 64 with hd1_def
    set data := (([d0, d1] ++ payload) ++ ck) with hdata
    have hdl : data.length = 36 := by
      simp [hdata, hlen, hcklen]
    have hd0 : data.getD 0 0 = d0 := by
      simp [hdata]
    have hd1 : data.getD 1 0 = d1 := by
      simp [hdata]
    unfold fromDataWithVersion
    rw [if_neg (by omega), hd0, hd1, if_neg (by omega), if_pos (by omega)]
    rw [show (0b00111111 : Nat) = 63 from rfl]
    rw [identDecode_eq ident h64 hlt]
    unfold fromDataParsed
    rw [if_neg (by omega)]
    have htake : data.take (32 + 2) = [d0, d1] ++ payload := by
      rw [hdata, List.take_left' (by simp [hlen])]
    have hdrop : data.drop (32 + 2) = ck := by
      rw [hdata, List.drop_left' (by simp [hlen])]
    rw [htake, hdrop, if_neg (by rw [hck]; simp)]
    have hdrop2 : data.drop 2 = payload ++ ck := by
      rw [hdata, List.append_assoc, List.drop_left' (by simp)]
    rw [hdrop2, List.take_left' hlen]

theorem fromString_toString_with_version (payload : List Nat) (version : Nat)
    (hlen : payload.length = 32) (hbytes : ∀ x ∈ payload, x < 256)
    (hv : version < 16384) :
    fromStringWithVersion (toStringWithVersion payload version)
      = .ok (payload, version) := by
  have hmask : version &&& 0b0011111111111111 = version := by
    rw [show (0b0011111111111111 : Nat) = 2 ^ 14 - 1 from rfl,
      Nat.and_pow_two_sub_one_eq_mod, Nat.mod_eq_of_lt hv]
  unfold toStringWithVersion fromStringWithVersion
  rw [hmask]
  set ib := identBytes version with hib
  set ck := (ss58hash (ib ++ payload)).take 2 with hck
  have hball : ∀ x ∈ (ib ++ payload) ++ ck, x < 256 := by
    intro x hx
    rcases List.mem_append.mp hx with hx2 | hx2
    · rcases List.mem_append.mp hx2 with hx3 | hx3
      · exact identBytes_lt version hv x hx3
      · exact hbytes x hx3
    · exact ss58hash_lt _ x (List.mem_of_mem_take hx2)
  rw [fromBase58_toBase58 _ hball]
  apply fromDataWithVersion_ok ib payload ck version _ hlen hck
  rcases Nat.lt_or_ge version 64 with h64 | h64
  · left
    refine ⟨by omega, ?_⟩
    rw [hib]
    unfold identBytes
    rw [if_pos (by omega)]
  · right
    exact ⟨h64, hv, by rw [hib]; exact identBytes_ge64 version h64 hv⟩

/-- Soundness of the checksum check: a successful SS58 decode implies the
two carried checksum bytes agree with the recomputed truncated hash (so any
disagreement means the decode did not succeed). -/
theorem fromDataWithVersion_checksum_sound (data : List Nat) (p : List Nat) (v : Nat)
    (h : fromDataWithVersion data = .ok (p, v)) :
    ∃ plen, (plen = 1 ∨ plen = 2) ∧ data.length = plen + 34
      ∧ data.drop (32 + plen) = (ss58hash (data.take (32 + plen))).take 2 := by
  have hparsed : ∀ plen ident, fromDataParsed data plen ident = .ok (p, v)
      → data.length = plen + 34
        ∧ data.drop (32 + plen) = (ss58hash (data.take (32 + plen))).take 2 := by
    intro plen ident hp
    unfold fromDataParsed at hp
    by_cases hl : data.length ≠ plen + 32 + 2
    · rw [if_pos hl] at hp
      exact absurd hp (by simp)
    rw [if_neg hl] at hp
    by_cases hcs : data.drop (32 + plen) ≠ (ss58hash (data.take (32 + plen))).take 2
    · rw [if_pos hcs] at hp
      exact absurd hp (by simp)
    · push_neg at hcs
      exact ⟨by omega, hcs⟩
  unfold fromDataWithVersion at h
  by_cases h2 : data.length < 2
  · rw [if_pos h2] at h
    exact absurd h (by simp)
  rw [if_neg h2] at h
  by_cases hc1 : data.getD 0 0 ≤ 63
  · rw [if_pos hc1] at h
    obtain ⟨h1, h2⟩ := hparsed 1 _ h
    exact ⟨1, Or.inl rfl, h1, h2⟩
  · rw [if_neg hc1] at h
    by_cases hc2 : data.getD 0 0 ≤ 127
    · rw [if_pos hc2] at h
      obtain ⟨h1, h2⟩ := hparsed 2 _ h
      exact ⟨2, Or.inr rfl, h1, h2⟩
    · rw [if_neg hc2] at h
      exact absurd h (by simp)

/-! ### Transaction round-trip -/

/-- The mortality values whose 2-byte packing decodes back to the same
value: `Immortal`, or a mortal era carrying no birth hash whose period is a
power of two in `[4, 65536]` and whose phase is a multiple of the quantize
factor.  (Values outside this set exist and are the counterexample to the
unconditional round-trip; see `Mortality.decode_encode_mortal`.) -/
def mortalityRT : Mortality → Prop
  | .Immortal => True
  | .Mortal period phase birth =>
    birth = none ∧ ∃ k, 2 ≤ k ∧ k ≤ 16 ∧ period = 2 ^ k ∧ phase < period
      ∧ quantizeFactor period ∣ phase

/-- Well-formed payload: round-trippable mortality, `u32` nonce, `u128`
payment. -/
def Payload.wf (p : Payload) : Prop :=
  mortalityRT p.mortality ∧ p.nonce < 2 ^ 32 ∧ p.payment < 2 ^ 128

/-- Well-formed transaction: if signed, the account id is 32 bytes, the
signature has its scheme's length, and the payload is well-formed. -/
def Transaction.wf {Call : Type} (t : Transaction Call) : Prop :=
  match t.signature with
  | none => True
  | some (addr, sig, payload) => addr.bytes.length = 32 ∧ sig.wf ∧ payload.wf

theorem mortality_roundtrip (m : Mortality) (hm : mortalityRT m)
    (rest : List Nat) : Mortality.decode (m.encode ++ rest) = some (m, rest) := by
  cases m with
  | Immortal => exact Mortality.decode_encode_immortal rest
  | Mortal period phase birth =>
    obtain ⟨rfl, k, hk2, hk16, rfl, hφ, hdvd⟩ := hm
    rw [Mortality.decode_encode_mortal k phase none hk2 hk16 hφ rest]
    rw [Nat.div_mul_cancel hdvd]

theorem payload_roundtrip (p : Payload) (hp : p.wf) (rest : List Nat) :
    Payload.decode (p.encode ++ rest) = some (p, rest) := by
  obtain ⟨mort, nonce, payment⟩ := p
  obtain ⟨hm, _, _⟩ := hp
  unfold Payload.encode Payload.decode
  simp only at hm ⊢
  rw [List.append_assoc, List.append_assoc]
  rw [mortality_roundtrip mort hm]
  simp only [Option.some_bind]
  rw [compactDecode_compactEncode]
  simp only [Option.some_bind]
  rw [compactDecode_compactEncode]
  simp only [Option.some_bind]

theorem transactionDecodeBody_cons {Call : Type}
    (decCall : List Nat → Option (Call × List Nat)) (b : Nat) (r2 : List Nat) :
    transactionDecodeBody decCall (b :: r2) =
      (if b = 132 then
        (AccountId.decode r2).bind fun ar =>
          (MultiSignature.decode ar.2).bind fun sr =>
            (Payload.decode sr.2).bind fun pr =>
              (decCall pr.2).bind fun cr =>
                some (⟨some (ar.1, sr.1, pr.1), cr.1⟩, cr.2)
      else if b = 4 then
        (decCall r2).bind fun cr => some (⟨none, cr.1⟩, cr.2)
      else none) := rfl

theorem transaction_roundtrip_wf {Call : Type} (encCall : Call → List Nat)
    (decCall : List Nat → Option (Call × List Nat))
    (hCall : ∀ c rest, decCall (encCall c ++ rest) = some (c, rest))
    (t : Transaction Call) (ht : t.wf) :
    Transaction.decode decCall (Transaction.encode encCall t) = some (t, []) := by
  unfold Transaction.encode Transaction.decode
  rw [compactDecode_compactEncode]
  simp only [Option.some_bind]
  obtain ⟨sig, call⟩ := t
  cases sig with
  | none =>
    simp only [transactionBody, List.singleton_append]
    rw [transactionDecodeBody_cons, if_neg (by omega), if_pos rfl]
    rw [show encCall call = encCall call ++ [] from (List.append_nil _).symm]
    rw [hCall call []]
    rfl
  | some triple =>
    obtain ⟨addr, sigm, payload⟩ := triple
    obtain ⟨h32, hsig, hp⟩ := ht
    simp only [transactionBody, List.cons_append]
    rw [transactionDecodeBody_cons, if_pos rfl]
    rw [show (addr.encode ++ sigm.encode ++ payload.encode) ++ encCall call
          = addr.encode ++ (sigm.encode ++ (payload.encode ++ (encCall call ++ [])))
        from by simp [List.append_assoc]]
    rw [accountId_roundtrip addr h32]
    simp only [Option.some_bind]
    rw [multiSignature_roundtrip sigm hsig]
    simp only [Option.some_bind]
    rw [payload_roundtrip payload hp]
    simp only [Option.some_bind]
    rw [hCall call []]
    rfl

/-! ## Claim theorems -/

/-- Trivial SCALE codec for a unit call: encodes no bytes, decodes nothing.
Used to instantiate the generic call parameter at concrete inputs. -/
def unitEnc : Unit → List Nat :=
  fun _ => []

/-- Decoder counterpart of `unitEnc`. -/
def unitDec : List Nat → Option (Unit × List Nat) :=
  fun l => some ((), l)

/-- A well-formed signed transaction whose payload is mortal, carries its
birth hash in memory and has a quantization-stable phase — the shape the
builder produces for a mortal transaction. -/
def mortalWithBirth : Transaction Unit :=
  ⟨some (⟨List.replicate 32 0⟩, .Sr25519 (List.replicate 64 0),
    ⟨.Mortal 4 0 (some (List.replicate 32 0)), 0, 0⟩), ()⟩

/-- A signed transaction with a birth-hash-free mortal payload. -/
def mortalNoBirth : Transaction Unit :=
  ⟨some (⟨List.replicate 32 5⟩, .Ecdsa (List.replicate 65 1),
    ⟨.Mortal 4 1 none, 7, 3000000000⟩), ()⟩

/-- C1 (amended): decoding the encoding of a `Transaction` recovers it, for
the unsigned shape unconditionally and for the signed shape whenever the
components are well-formed in the sense of `Transaction.wf`: a 32-byte
account id, a signature of its scheme's length, a `u32` nonce and `u128`
payment, and a payload mortality that either is `Immortal` or is
`Mortal(2^k, phase, None)` with `2 ≤ k ≤ 16`, `phase < period` and `phase` a
multiple of the quantize factor.  (The unamended claim fails because the
encoding drops a mortal payload's in-memory birth hash, see
`C1_counterexample`.) -/
theorem C1_transaction_roundtrip {Call : Type} (encCall : Call → List Nat)
    (decCall : List Nat → Option (Call × List Nat))
    (hCall : ∀ c rest, decCall (encCall c ++ rest) = some (c, rest))
    (t : Transaction Call) (ht : t.wf) :
    Transaction.decode decCall (Transaction.encode encCall t) = some (t, []) :=
  transaction_roundtrip_wf encCall decCall hCall t ht

/-- C1 counterexample: a signed transaction whose (well-formed, in-range)
mortal payload carries its birth hash does not round-trip — the encoding
drops the hash, so decoding yields `Mortal(4, 0, None)` in its place. -/
theorem C1_counterexample :
    Transaction.decode unitDec (Transaction.encode unitEnc mortalWithBirth)
      ≠ some (mortalWithBirth, []) := by
  decide

/-- C1 witness: a mortal (birth-hash-free) signed transaction round-trips. -/
theorem C1_witness :
    Transaction.decode unitDec (Transaction.encode unitEnc mortalNoBirth)
      = some (mortalNoBirth, []) := by
  apply C1_transaction_roundtrip unitEnc unitDec
  · intro c rest
    cases c
    rfl
  · refine ⟨by decide, ?_, ?_, by decide, by decide⟩
    · show (List.replicate 65 1 : List Nat).length = 65
      decide
    · exact ⟨rfl, 2, by omega, by omega, by norm_num, by decide, by decide⟩

/-- C2: after the compact length prefix, the first byte of a transaction's
encoding is `132` when signed and `4` when unsigned; and decoding an input
whose byte at that position is neither `132` nor `4` is an error. -/
theorem C2_envelope_tag {Call : Type} (encCall : Call → List Nat)
    (decCall : List Nat → Option (Call × List Nat)) (t : Transaction Call)
    (n b : Nat) (rest : List Nat) (hb132 : b ≠ 132) (hb4 : b ≠ 4) :
    ((Transaction.encode encCall t).drop
        (compactEncode (transactionBody encCall t).length).length).head?
      = some (if t.signature.isSome then 132 else 4)
    ∧ Transaction.decode decCall (compactEncode n ++ (b :: rest)) = none := by
  constructor
  · unfold Transaction.encode
    rw [List.drop_left]
    obtain ⟨sig, call⟩ := t
    cases sig with
    | none => simp [transactionBody]
    | some triple => simp [transactionBody]
  · unfold Transaction.decode
    rw [compactDecode_compactEncode]
    simp only [Option.some_bind]
    rw [transactionDecodeBody_cons, if_neg hb132, if_neg hb4]

/-- C2 witness at a concrete unsigned transaction and version byte `99`. -/
theorem C2_witness :
    ((Transaction.encode unitEnc (Transaction.new_unsigned ())).drop
        (compactEncode ((transactionBody unitEnc (Transaction.new_unsigned ())).length)).length).head?
      = some (if (Transaction.new_unsigned ()).signature.isSome then 132 else 4)
    ∧ Transaction.decode unitDec (compactEncode 5 ++ (99 :: [7, 8])) = none :=
  C2_envelope_tag unitEnc unitDec (Transaction.new_unsigned ()) 5 99 [7, 8]
    (by decide) (by decide)

/-- C3: the bytes `SignaturePayload::using_encoded` passes to the signer are
the raw concatenation `sig_bytes` whenever it is at most 256 bytes long (in
particular at exactly 256), and the 32-byte BLAKE2b-256 digest of
`sig_bytes` whenever it is at least 257 bytes long. -/
theorem C3_signature_payload {Call : Type} (encCall : Call → List Nat)
    (call : Call) (payload : Payload) (extra : ExtraSignaturePayload) :
    ((signaturePayloadRaw encCall call payload extra).length ≤ 256 →
      signaturePayloadBytes encCall call payload extra
        = signaturePayloadRaw encCall call payload extra)
    ∧ (257 ≤ (signaturePayloadRaw encCall call payload extra).length →
        signaturePayloadBytes encCall call payload extra
          = blake2b256 (signaturePayloadRaw encCall call payload extra)
        ∧ (blake2b256 (signaturePayloadRaw encCall call payload extra)).length = 32) := by
  constructor
  · intro h
    unfold signaturePayloadBytes
    rw [if_neg (by omega)]
  · intro h
    unfold signaturePayloadBytes
    rw [if_pos (by omega)]
    exact ⟨rfl, blake2b_length 32 _ (by omega)⟩

/-- A payload/extra fixture whose raw signature bytes have length `k + 11`
for a `k`-byte call encoding: used to exercise both sides of the 256-byte
boundary. -/
def padCall (k : Nat) : Unit → List Nat :=
  fun _ => List.replicate k 0

set_option maxRecDepth 8192 in
/-- C3 witness: at `|sig_bytes| = 256` the raw bytes are signed, at
`|sig_bytes| = 257` the 32-byte digest is signed. -/
theorem C3_witness :
    (signaturePayloadBytes (padCall 245) () ⟨.Immortal, 0, 0⟩ ⟨0, 0, [], []⟩
      = signaturePayloadRaw (padCall 245) () ⟨.Immortal, 0, 0⟩ ⟨0, 0, [], []⟩)
    ∧ (signaturePayloadBytes (padCall 246) () ⟨.Immortal, 0, 0⟩ ⟨0, 0, [], []⟩
        = blake2b256 (signaturePayloadRaw (padCall 246) () ⟨.Immortal, 0, 0⟩ ⟨0, 0, [], []⟩)
      ∧ (blake2b256 (signaturePayloadRaw (padCall 246) ()
          ⟨.Immortal, 0, 0⟩ ⟨0, 0, [], []⟩)).length = 32) :=
  ⟨(C3_signature_payload (padCall 245) () ⟨.Immortal, 0, 0⟩ ⟨0, 0, [], []⟩).1 (by decide),
   (C3_signature_payload (padCall 246) () ⟨.Immortal, 0, 0⟩ ⟨0, 0, [], []⟩).2 (by decide)⟩

/-- C4 (amended): `build()` fails with `BuilderMissingField` naming the
first omitted mandatory field in source order (`signer`, `call`, `nonce`,
`payment`, `network`), and a mortal transaction without a birth hash fails
with `BuilderMissingField("no birth block in Mortality")` (not `"birth"` —
see `C4_counterexample`) once the mandatory fields and, for networks other
than Kusama/Polkadot, `spec_version` are present. -/
theorem C4_builder_missing_fields {Call : Type} (encCall : Call → List Nat)
    (sign : MultiKeyPair → List Nat → MultiSignature) :
    (∀ cl nc pm nw mort sv,
      SignedTransactionBuilder.build encCall sign ⟨none, cl, nc, pm, nw, mort, sv⟩
        = .err (.BuilderMissingField ("signer")))
    ∧ (∀ sg nc pm nw mort sv,
        SignedTransactionBuilder.build encCall sign ⟨some sg, none, nc, pm, nw, mort, sv⟩
          = .err (.BuilderMissingField ("call")))
    ∧ (∀ sg cl pm nw mort sv,
        SignedTransactionBuilder.build encCall sign ⟨some sg, some cl, none, pm, nw, mort, sv⟩
          = .err (.BuilderMissingField ("nonce")))
    ∧ (∀ sg cl nc nw mort sv,
        SignedTransactionBuilder.build encCall sign
            ⟨some sg, some cl, some nc, none, nw, mort, sv⟩
          = .err (.BuilderMissingField ("payment")))
    ∧ (∀ sg cl nc pm mort sv,
        SignedTransactionBuilder.build encCall sign
            ⟨some sg, some cl, some nc, some pm, none, mort, sv⟩
          = .err (.BuilderMissingField ("network")))
    ∧ (∀ sg cl nc pm nw sv p φ,
        (nw = .Kusama ∨ nw = .Polkadot ∨ sv.isSome) →
        SignedTransactionBuilder.build encCall sign
            ⟨some sg, some cl, some nc, some pm, some nw, .Mortal p φ none, sv⟩
          = .err (.BuilderMissingField ("no birth block in Mortality"))) := by
  refine ⟨fun _ _ _ _ _ _ => rfl, fun _ _ _ _ _ _ => rfl, fun _ _ _ _ _ _ => rfl,
    fun _ _ _ _ _ _ => rfl, fun _ _ _ _ _ _ => rfl, ?_⟩
  intro sg cl nc pm nw sv p φ hsv
  rcases hsv with rfl | rfl | hsv
  · rfl
  · rfl
  · obtain ⟨v, rfl⟩ := Option.isSome_iff_exists.mp hsv
    cases nw <;> rfl

/-- C4 witness: a concrete builder missing only its signer, and a concrete
mortal builder without a birth hash. -/
theorem C4_witness :
    (SignedTransactionBuilder.build unitEnc (fun _ _ => .Ed25519 [])
        ⟨none, some (), some 0, some 0, some .Polkadot, .Immortal, none⟩
      = .err (.BuilderMissingField ("signer")))
    ∧ (SignedTransactionBuilder.build unitEnc (fun _ _ => .Ed25519 [])
        ⟨some (.Ed25519 (List.replicate 32 0)), some (), some 0, some 0,
         some .Polkadot, .Mortal 4 0 none, none⟩
      = .err (.BuilderMissingField ("no birth block in Mortality"))) :=
  ⟨(C4_builder_missing_fields unitEnc (fun _ _ => .Ed25519 [])).1
      (some ()) (some 0) (some 0) (some .Polkadot) .Immortal none,
   (C4_builder_missing_fields unitEnc (fun _ _ => .Ed25519 [])).2.2.2.2.2
      (.Ed25519 (List.replicate 32 0)) () 0 0 .Polkadot none 4 0 (Or.inr (Or.inl rfl))⟩

/-- C4 counterexample: at a fully populated mortal builder without a birth
hash, `build()` fails with `BuilderMissingField("no birth block in
Mortality")`, which is not the claimed `MissingField("birth")`. -/
theorem C4_counterexample :
    SignedTransactionBuilder.build unitEnc (fun _ _ => .Ed25519 [])
        ⟨some (.Ed25519 (List.replicate 32 0)), some (), some 0, some 0,
         some .Polkadot, .Mortal 4 0 none, none⟩
      = .err (.BuilderMissingField ("no birth block in Mortality"))
    ∧ Error.BuilderMissingField ("no birth block in Mortality")
        ≠ .BuilderMissingField ("birth") := by
  exact ⟨rfl, by decide⟩

/-- C5: converting an Ed25519 or Sr25519 keypair to an `AccountId` yields
its 32-byte public key, but the ECDSA arm of `From<MultiKeyPair> for
AccountId` is `unimplemented!()` — evaluating it at a concrete ECDSA
keypair panics instead of producing the BLAKE2b-256 of the compressed
public key that the claim (and the type's own documentation) promise. -/
theorem C5_account_derivation :
    (∀ pubkey, MultiKeyPair.toAccountId (.Ed25519 pubkey) = .ok ⟨pubkey⟩)
    ∧ (∀ pubkey, MultiKeyPair.toAccountId (.Sr25519 pubkey) = .ok ⟨pubkey⟩)
    ∧ MultiKeyPair.toAccountId (.Ecdsa (List.replicate 33 2)) = .panicked :=
  ⟨fun _ => rfl, fun _ => rfl, rfl⟩

/-- C6: SS58 decoding inverts encoding — for every 32-byte payload and
14-bit network identifier, decoding the encoded address returns the
original payload and identifier — and decoding never succeeds on data whose
two carried checksum bytes disagree with the recomputed truncated
BLAKE2b-512 checksum: every successful decode carries the matching
checksum. -/
theorem C6_ss58_roundtrip :
    (∀ payload version, payload.length = 32 → (∀ x ∈ payload, x < 256)
      → version < 16384 →
      fromStringWithVersion (toStringWithVersion payload version)
        = .ok (payload, version))
    ∧ (∀ s p v, fromStringWithVersion s = .ok (p, v) →
        ∃ data plen, fromBase58 s = some data ∧ (plen = 1 ∨ plen = 2)
          ∧ data.length = plen + 34
          ∧ data.drop (32 + plen) = (ss58hash (data.take (32 + plen))).take 2) := by
  constructor
  · intro payload version h1 h2 h3
    exact fromString_toString_with_version payload version h1 h2 h3
  · intro s p v h
    unfold fromStringWithVersion at h
    cases hfb : fromBase58 s with
    | none =>
      rw [hfb] at h
      exact absurd h (by simp)
    | some data =>
      rw [hfb] at h
      obtain ⟨plen, hp12, hlen, hck⟩ := fromDataWithVersion_checksum_sound data p v h
      exact ⟨data, plen, rfl, hp12, hlen, hck⟩

/-- C6 witness: the zero account on network 0 round-trips. -/
theorem C6_witness :
    fromStringWithVersion (toStringWithVersion (List.replicate 32 0) 0)
      = .ok (List.replicate 32 0, 0) :=
  C6_ss58_roundtrip.1 (List.replicate 32 0) 0 (by decide) (by decide) (by decide)

/-- C7: contrary to the spec's no-panic policy, the SS58 decoding entry
points and `MetadataVersion::into_inner` panic on malformed or unexpected
input instead of returning a categorized error: `from_string_with_version`
panics on a non-Base58 string (an `unwrap` on the Base58 decode),
`AccountId::from_ss58_address` `unwrap`s the decode result, and
`into_inner` is an explicit `panic!()` on every non-V13 version. -/
theorem C7_panics_on_untrusted_input :
    fromStringWithVersion ['0'] = .panicked
    ∧ AccountId.from_ss58_address ['0'] = .panicked
    ∧ MetadataVersion.into_inner .V0 = .panicked := by
  refine ⟨by decide, by decide, rfl⟩

/-- C8: `Balance` encodes as the SCALE compact encoding of its base-unit
value, and `Balance::decode` fails on every input byte stream. -/
theorem C8_balance_codec :
    (∀ b : Balance, Balance.encode b = compactEncode b.as_base_unit)
    ∧ (∀ input, Balance.decode input = none) :=
  ⟨fun _ => rfl, fun _ => rfl⟩

/-- C9 (amended): each catch-up iteration requests exactly the inclusive
range from `last_block` to `min(head, last_block + BLOCK_HASH_LIMIT)` with
`BLOCK_HASH_LIMIT = 30` — which, being inclusive at both ends, contains up
to `BLOCK_HASH_LIMIT + 1 = 31` block numbers, not 30 (see
`C9_counterexample`). -/
theorem C9_catchup_range (last_block latest : Nat) :
    (∀ n, n ∈ catchupRange last_block latest
      ↔ last_block ≤ n ∧ n ≤ min latest (last_block + BLOCK_HASH_LIMIT))
    ∧ (catchupRange last_block latest).length ≤ BLOCK_HASH_LIMIT + 1 := by
  constructor
  · intro n
    unfold catchupRange
    rw [List.mem_range'_1]
    unfold BLOCK_HASH_LIMIT
    omega
  · unfold catchupRange BLOCK_HASH_LIMIT
    rw [List.length_range']
    omega

/-- C9 counterexample: with `last_block = 0` and head `30`, one batch holds
the 31 numbers `0..=30`, exceeding `BLOCK_HASH_LIMIT = 30`. -/
theorem C9_counterexample :
    ¬ ((catchupRange 0 30).length ≤ BLOCK_HASH_LIMIT) := by
  decide

/-- C10: for `Mortal(2^k, phase, h)` with `2 ≤ k ≤ 16` and `phase < 2^k`,
the SCALE encoding is 2 bytes and independent of the optional birth hash
`h`; decoding it yields `Mortal(2^k, (phase/q)*q, None)` with
`q = max(period >> 12, 1)`, so the phase is recovered exactly iff `q`
divides `phase`; and the birth-hash field of any successfully decoded
`Mortality` is `None`. -/
theorem C10_mortality_codec (k φ : Nat) (birth : Option (List Nat))
    (rest : List Nat) (hk2 : 2 ≤ k) (hk16 : k ≤ 16) (hφ : φ < 2 ^ k) :
    (Mortality.encode (.Mortal (2 ^ k) φ birth)).length = 2
    ∧ Mortality.encode (.Mortal (2 ^ k) φ birth)
        = Mortality.encode (.Mortal (2 ^ k) φ none)
    ∧ Mortality.decode (Mortality.encode (.Mortal (2 ^ k) φ birth) ++ rest)
        = some (.Mortal (2 ^ k)
            (φ / quantizeFactor (2 ^ k) * quantizeFactor (2 ^ k)) none, rest)
    ∧ (φ / quantizeFactor (2 ^ k) * quantizeFactor (2 ^ k) = φ
        ↔ quantizeFactor (2 ^ k) ∣ φ)
    ∧ (∀ input m r, Mortality.decode input = some (m, r) → m.birthHash = none) := by
  refine ⟨rfl, rfl, Mortality.decode_encode_mortal k φ birth hk2 hk16 hφ rest, ?_, ?_⟩
  · constructor
    · intro h
      refine ⟨φ / quantizeFactor (2 ^ k), ?_⟩
      conv_lhs => rw [← h]
      exact Nat.mul_comm _ _
    · intro h
      exact Nat.div_mul_cancel h
  · intro input m r h
    cases input with
    | nil => exact absurd h (by simp [Mortality.decode])
    | cons first rest' =>
      cases rest' with
      | nil =>
        rw [Mortality.decode_one] at h
        by_cases h0 : first = 0
        · rw [if_pos h0] at h
          simp at h
          rw [← h.1]
          rfl
        · rw [if_neg h0] at h
          exact absurd h (by simp)
      | cons b2 r2 =>
        rw [Mortality.decode_two] at h
        by_cases h0 : first = 0
        · rw [if_pos h0] at h
          simp at h
          rw [← h.1]
          rfl
        · rw [if_neg h0] at h
          by_cases hg : 4 ≤ 2 <<< ((first + (b2 <<< 8)) % 16)
              ∧ ((first + (b2 <<< 8)) >>> 4)
                  * quantizeFactor (2 <<< ((first + (b2 <<< 8)) % 16))
                < 2 <<< ((first + (b2 <<< 8)) % 16)
          · rw [if_pos hg] at h
            simp at h
            rw [← h.1]
            rfl
          · rw [if_neg hg] at h
            exact absurd h (by simp)

/-- C10 witness: `k = 2`, `phase = 1`, a present birth hash. -/
theorem C10_witness :
    (Mortality.encode (.Mortal (2 ^ 2) 1 (some (List.replicate 32 7)))).length = 2
    ∧ Mortality.encode (.Mortal (2 ^ 2) 1 (some (List.replicate 32 7)))
        = Mortality.encode (.Mortal (2 ^ 2) 1 none)
    ∧ Mortality.decode
        (Mortality.encode (.Mortal (2 ^ 2) 1 (some (List.replicate 32 7))) ++ [9])
        = some (.Mortal (2 ^ 2)
            (1 / quantizeFactor (2 ^ 2) * quantizeFactor (2 ^ 2)) none, [9])
    ∧ (1 / quantizeFactor (2 ^ 2) * quantizeFactor (2 ^ 2) = 1
        ↔ quantizeFactor (2 ^ 2) ∣ 1) := by
  obtain ⟨h1, h2, h3, h4, _⟩ :=
    C10_mortality_codec 2 1 (some (List.replicate 32 7)) [9]
      (by decide) (by decide) (by decide)
  exact ⟨h1, h2, h3, h4⟩

end Gekko
